import Mathlib

/-!
Verification of the `fabryk-graph` crate of the textrynum repository.

This file shallowly embeds the data model and operations of
`crates/fabryk-graph/src/types.rs`, `algorithms.rs` and `builder.rs`,
and proves or refutes the frozen claims about them.

Modelling conventions:

* Rust `f32` weights are modelled as `ℚ`.  All concrete weights used in
  counterexamples are chosen so that the `f32` computations of the code
  (`1.0 / w.max(0.01)` followed by an `as u32` cast) agree exactly with the
  rational model (they are far away from rounding boundaries).
* Rust `HashMap`/`HashSet` are modelled as association lists / lists.  Their
  iteration order is unspecified in Rust; no claim proved here depends on a
  particular iteration order (order-sensitive statements are stated up to
  permutation).
* `petgraph::graph::DiGraph` is modelled as a vertex list (position =
  `NodeIndex`) plus an arc list (source index, target index, payload).
  `remove_node` swaps the last vertex into the removed slot, exactly as
  petgraph does.  petgraph's internal edge order after a removal is modelled
  as order-preserving filtering; only multiset-level facts about the arc list
  are proved.
* `petgraph::algo::astar` (with the zero heuristic the code passes) and
  `petgraph::algo::toposort` are third-party library calls; they are modelled
  by their documented contracts: `astar` returns a path of minimum total cost,
  `toposort` fails exactly when the graph has a directed cycle.
* `serde_json::Value` is modelled by the `Json` inductive below.
-/

namespace Fabryk

/-- Model of `serde_json::Value` (node metadata values). -/
inductive Json where
  | null
  | jbool (b : Bool)
  | jnum (q : ℚ)
  | jstr (s : String)
  | jarr (elems : List Json)
  | jobj (fields : List (String × Json))

/-- Relationship types for graph edges (`types.rs`). -/
inductive Relationship where
  | Prerequisite
  | LeadsTo
  | RelatesTo
  | Extends
  | Introduces
  | Covers
  | VariantOf
  | ContrastsWith
  | AnswersQuestion
  | Custom (name : String)
deriving DecidableEq, Repr

/-- Default weight for a relationship type (`Relationship::default_weight`).
The `f32` constants of the code are modelled as exact rationals. -/
def Relationship.default_weight : Relationship → ℚ
  | .Prerequisite => 1
  | .LeadsTo => 1
  | .Extends => mkRat 9 10
  | .Introduces => mkRat 8 10
  | .Covers => mkRat 8 10
  | .VariantOf => mkRat 9 10
  | .ContrastsWith => mkRat 7 10
  | .AnswersQuestion => mkRat 6 10
  | .RelatesTo => mkRat 7 10
  | .Custom _ => mkRat 5 10

/-- Origin of an edge in the graph (`types.rs`). -/
inductive EdgeOrigin where
  | Frontmatter
  | ContentBody
  | Manual
  | Inferred
deriving DecidableEq, Repr

/-- Type of a graph node (`types.rs`). -/
inductive NodeType where
  | Domain
  | UserQuery
  | Custom (name : String)
deriving DecidableEq, Repr

/-- A node in the knowledge graph (`types.rs`). -/
structure Node where
  id : String
  title : String
  category : Option String
  source_id : Option String
  is_canonical : Bool
  canonical_id : Option String
  node_type : NodeType
  metadata : List (String × Json)

/-- Creates a new canonical domain node (`Node::new`). -/
def Node.new (id title : String) : Node :=
  ⟨id, title, none, none, true, none, .Domain, []⟩

/-- Sets the category (`Node::with_category`). -/
def Node.with_category (n : Node) (category : String) : Node :=
  { n with category := some category }

/-- An edge connecting two nodes (`types.rs`).  The Rust fields `from` and
`to` are named `fromId`/`toId` here because `from` is a Lean keyword. -/
structure Edge where
  fromId : String
  toId : String
  relationship : Relationship
  weight : ℚ
  origin : EdgeOrigin
deriving DecidableEq

/-- Creates a new edge with default weight (`Edge::new`). -/
def Edge.new (fromId toId : String) (relationship : Relationship) : Edge :=
  ⟨fromId, toId, relationship, relationship.default_weight, .Frontmatter⟩

/-- Sets an explicit weight (`Edge::with_weight`). -/
def Edge.with_weight (e : Edge) (weight : ℚ) : Edge :=
  { e with weight := weight }

-- ===========================================================================
-- Association-list model of std::collections::HashMap
-- ===========================================================================

/-- Lookup in an association list (model of `HashMap::get`). -/
def assocGet {ν : Type} (k : String) (m : List (String × ν)) : Option ν :=
  (m.find? (fun p => p.1 == k)).map (·.2)

/-- Insert into an association list (model of `HashMap::insert`): replaces the
value of an existing key, otherwise appends. -/
def assocInsert {ν : Type} (k : String) (v : ν) (m : List (String × ν)) :
    List (String × ν) :=
  if (assocGet k m).isSome then
    m.map (fun p => if p.1 == k then (k, v) else p)
  else
    m ++ [(k, v)]

/-- Remove from an association list (model of `HashMap::remove`): returns the
removed value (if any) and the remaining list. -/
def assocRemove {ν : Type} (k : String) (m : List (String × ν)) :
    Option ν × List (String × ν) :=
  (assocGet k m, m.filter (fun p => !(p.1 == k)))

-- ===========================================================================
-- Model of petgraph::graph::DiGraph<Node, Edge>
-- ===========================================================================

/-- A stored arc of the petgraph graph: endpoint indices plus payload. -/
structure PGEdge where
  src : Nat
  tgt : Nat
  payload : Edge
deriving DecidableEq

/-- Model of `petgraph::graph::DiGraph<Node, Edge>`: vertices are stored in a
list whose positions are the `NodeIndex` values; arcs carry endpoint
indices. -/
structure DiGraph where
  verts : List Node
  arcs : List PGEdge

/-- `Graph::add_node`: appends the node, returning its index. -/
def DiGraph.addNode (g : DiGraph) (n : Node) : Nat × DiGraph :=
  (g.verts.length, { g with verts := g.verts ++ [n] })

/-- `Graph::add_edge`: appends an arc between two existing indices. -/
def DiGraph.addEdge (g : DiGraph) (a b : Nat) (e : Edge) : DiGraph :=
  { g with arcs := g.arcs ++ [⟨a, b, e⟩] }

/-- `Graph::remove_node idx`: removes all arcs incident on `idx`, then removes
the vertex, swapping the last vertex into slot `idx` (so the last vertex is
renumbered to `idx`).  petgraph's internal edge-list order after the removal
is not preserved by this model (only the multiset of arcs is). -/
def DiGraph.removeNode (g : DiGraph) (idx : Nat) : DiGraph :=
  match g.verts.getLast? with
  | none => g
  | some last =>
    let lastIdx := g.verts.length - 1
    let ren : Nat → Nat := fun i => if i = lastIdx then idx else i
    { verts := (g.verts.set idx last).dropLast,
      arcs := (g.arcs.filter (fun e => !(e.src == idx || e.tgt == idx))).map
        (fun e => { e with src := ren e.src, tgt := ren e.tgt }) }

/-- Outgoing arcs of a vertex (`Graph::edges_directed(idx, Outgoing)`,
also `Graph::edges(idx)` for a directed graph). -/
def DiGraph.outArcs (g : DiGraph) (idx : Nat) : List PGEdge :=
  g.arcs.filter (fun e => e.src == idx)

/-- Incoming arcs of a vertex (`Graph::edges_directed(idx, Incoming)`). -/
def DiGraph.inArcs (g : DiGraph) (idx : Nat) : List PGEdge :=
  g.arcs.filter (fun e => e.tgt == idx)

/-- Vertex payload at an index (`graph[idx]`); the Rust indexing panics on an
invalid index, which never happens in reachable states — an arbitrary default
node is returned in that case. -/
def DiGraph.nodeAt (g : DiGraph) (idx : Nat) : Node :=
  g.verts.getD idx (Node.new "" "")

/-- `Graph::find_edge(a, b)`: the payload of an arc from `a` to `b`, if any.
(For parallel edges petgraph's choice among them may differ from the first
match used here; no claim below concerns parallel edges.) -/
def DiGraph.findEdge (g : DiGraph) (a b : Nat) : Option Edge :=
  (g.arcs.find? (fun e => e.src == a && e.tgt == b)).map (·.payload)

-- ===========================================================================
-- GraphData (types.rs) and its runtime mutation API
-- ===========================================================================

/-- Modelled from the spec: the full `fabryk_core::Error` enum is not under
`src/` (the `fabryk-core` source there contains only a placeholder variant,
while callers construct `Error::not_found` and match `Error::NotFound`).  The
spec's error taxonomy lists NotFound as "a queried node id, or an edge
endpoint, does not exist"; only that variant is needed by the graph code. -/
inductive Error where
  | NotFound (entity : String) (id : String)
deriving DecidableEq, Repr

/-- Core graph data structure (`types.rs`): the petgraph graph plus the two
lookup tables and the flat edge list. -/
structure GraphData where
  graph : DiGraph
  node_indices : List (String × Nat)
  nodes : List (String × Node)
  edges : List Edge

/-- Creates an empty graph (`GraphData::new`). -/
def GraphData.new : GraphData := ⟨⟨[], []⟩, [], [], []⟩

/-- Returns the number of nodes (`GraphData::node_count`). -/
def GraphData.node_count (g : GraphData) : Nat := g.graph.verts.length

/-- Returns the number of edges (`GraphData::edge_count`). -/
def GraphData.edge_count (g : GraphData) : Nat := g.graph.arcs.length

/-- Gets a node by ID (`GraphData::get_node`). -/
def GraphData.get_node (g : GraphData) (id : String) : Option Node :=
  assocGet id g.nodes

/-- Gets the NodeIndex for a node ID (`GraphData::get_index`). -/
def GraphData.get_index (g : GraphData) (id : String) : Option Nat :=
  assocGet id g.node_indices

/-- Checks if a node exists (`GraphData::contains_node`). -/
def GraphData.contains_node (g : GraphData) (id : String) : Bool :=
  (assocGet id g.nodes).isSome

/-- Add a node at runtime (`GraphData::add_node`): if the id already exists
the stored index is returned and nothing changes, otherwise the node is
inserted into the petgraph graph and both lookup tables. -/
def GraphData.add_node (g : GraphData) (node : Node) : Nat × GraphData :=
  match assocGet node.id g.node_indices with
  | some existing_idx => (existing_idx, g)
  | none =>
    let id := node.id
    let (idx, graph2) := g.graph.addNode node
    (idx, { g with
            graph := graph2,
            node_indices := assocInsert id idx g.node_indices,
            nodes := assocInsert id node g.nodes })

/-- Add an edge between two nodes identified by ID (`GraphData::add_edge`):
fails with NotFound if either endpoint id is absent, otherwise appends to
both the petgraph graph and the flat edge list.  The mutated state is
returned alongside the `Result<()>`. -/
def GraphData.add_edge (g : GraphData) (edge : Edge) :
    Except Error Unit × GraphData :=
  match assocGet edge.fromId g.node_indices with
  | none => (.error (.NotFound "node" edge.fromId), g)
  | some from_idx =>
    match assocGet edge.toId g.node_indices with
    | none => (.error (.NotFound "node" edge.toId), g)
    | some to_idx =>
      (.ok (), { g with
                 graph := g.graph.addEdge from_idx to_idx edge,
                 edges := g.edges ++ [edge] })

/-- Rebuild of the id→index table after a removal (the loop at the end of
`GraphData::remove_node`): iterates the graph's node indices in order,
inserting each `(node.id, index)` pair. -/
def rebuildIndices (verts : List Node) : List (String × Nat) :=
  (verts.enum.map (fun p => (p.2.id, p.1))).foldl
    (fun m p => assocInsert p.1 p.2 m) []

/-- Remove a node and all its connected edges (`GraphData::remove_node`). -/
def GraphData.remove_node (g : GraphData) (id : String) :
    Option Node × GraphData :=
  match assocRemove id g.node_indices with
  | (none, _) => (none, g)
  | (some idx, ni) =>
    let g1 := { g with node_indices := ni }
    match assocRemove id g1.nodes with
    | (none, _) => (none, g1)
    | (some node, ns) =>
      let graph2 := g1.graph.removeNode idx
      (some node,
       { graph := graph2,
         nodes := ns,
         edges := g1.edges.filter (fun e => !(e.fromId == id) && !(e.toId == id)),
         node_indices := rebuildIndices graph2.verts })

-- ===========================================================================
-- Algorithms (algorithms.rs)
-- ===========================================================================

/-- Maximum allowed BFS depth (`MAX_BFS_DEPTH`). -/
def MAX_BFS_DEPTH : Nat := 10

/-- Result of a neighborhood query (`NeighborhoodResult`). -/
structure NeighborhoodResult where
  center : Node
  nodes : List Node
  edges : List Edge
  distances : List (String × Nat)

/-- Mutable state of the BFS loop in `neighborhood`. -/
structure BfsState where
  visited : List Nat
  distances : List (String × Nat)
  queue : List (Nat × Nat)
  result_nodes : List Node
  result_edges : List Edge

/-- One edge visit of the BFS in `neighborhood`: apply the relationship
filter, and if the picked endpoint (`target` for outgoing, `source` for
incoming arcs) is unvisited, record it together with its discovery edge. -/
def bfsEdgeStep (g : DiGraph) (filter : Option (List Relationship))
    (dist : Nat) (pick : PGEdge → Nat) (st : BfsState) (e : PGEdge) :
    BfsState :=
  let keep := match filter with
    | some f => f.contains e.payload.relationship
    | none => true
  if keep then
    let nb := pick e
    if st.visited.contains nb then st
    else
      { visited := nb :: st.visited,
        distances := assocInsert (g.nodeAt nb).id (dist + 1) st.distances,
        queue := st.queue ++ [(nb, dist + 1)],
        result_nodes := st.result_nodes ++ [g.nodeAt nb],
        result_edges := st.result_edges ++ [e.payload] }
  else st

/-- The BFS work loop of `neighborhood`.  The Rust loop runs until the queue
is empty; every enqueued index was freshly inserted into `visited` and is
either the center or an endpoint of some arc, so the number of iterations is
at most `2 + |verts| + 2 * |arcs|`, which is the fuel `neighborhood` passes
in — the fuel never runs out. -/
def bfsLoop (g : DiGraph) (filter : Option (List Relationship))
    (radius : Nat) : Nat → BfsState → BfsState
  | 0, st => st
  | fuel + 1, st =>
    match st.queue with
    | [] => st
    | (current_idx, current_dist) :: rest =>
      let st1 := { st with queue := rest }
      if radius ≤ current_dist then bfsLoop g filter radius fuel st1
      else
        let st2 := (g.outArcs current_idx).foldl
          (bfsEdgeStep g filter current_dist (·.tgt)) st1
        let st3 := (g.inArcs current_idx).foldl
          (bfsEdgeStep g filter current_dist (·.src)) st2
        bfsLoop g filter radius fuel st3

/-- Get the N-hop neighborhood around a node (`neighborhood`): bidirectional
BFS from the center, radius clamped to `MAX_BFS_DEPTH`. -/
def neighborhood (g : GraphData) (center_id : String) (radius : Nat)
    (relationship_filter : Option (List Relationship)) :
    Except Error NeighborhoodResult :=
  match g.get_node center_id with
  | none => .error (.NotFound "node" center_id)
  | some center_node =>
    match g.get_index center_id with
    | none => .error (.NotFound "node index" center_id)
    | some center_idx =>
      let radius := min radius MAX_BFS_DEPTH
      let init : BfsState :=
        { visited := [center_idx],
          distances := [(center_id, 0)],
          queue := [(center_idx, 0)],
          result_nodes := [],
          result_edges := [] }
      let st := bfsLoop g.graph relationship_filter radius
        (2 + g.graph.verts.length + 2 * g.graph.arcs.length) init
      .ok { center := center_node,
            nodes := st.result_nodes,
            edges := st.result_edges,
            distances := st.distances }

/-- Discovery records of the `neighborhood` BFS: position `i` pairs the
vertex index discovered `i`-th with the arc by which it was first reached.
Each such arc is an arc of the graph, one of its endpoints is the discovered
vertex, and its other endpoint was discovered strictly earlier — it is the
center `cidx` or the vertex of a record at a smaller position. -/
def BfsDisc (g : DiGraph) (cidx : Nat) (recs : List (Nat × PGEdge)) : Prop :=
  ∀ i, (hi : i < recs.length) →
    recs[i].2 ∈ g.arcs ∧
      ((recs[i].2.tgt = recs[i].1 ∧
          recs[i].2.src ∈ cidx :: (recs.map Prod.fst).take i) ∨
        (recs[i].2.src = recs[i].1 ∧
          recs[i].2.tgt ∈ cidx :: (recs.map Prod.fst).take i))

/-- Invariant of the `neighborhood` BFS state: a single discovery-record list
`recs` explains the whole state — the visited set is the center plus the
discovered vertices, the result lists are exactly the discovered nodes and
the payloads of their discovery arcs in discovery order, no vertex is
discovered twice (nor equals the center), every queued index has already
been visited, and the records satisfy `BfsDisc`. -/
def BfsInv (g : DiGraph) (cidx : Nat) (st : BfsState) : Prop :=
  ∃ recs : List (Nat × PGEdge),
    st.visited = (recs.map Prod.fst).reverse ++ [cidx] ∧
    st.result_nodes = recs.map (fun r => g.nodeAt r.1) ∧
    st.result_edges = recs.map (fun r => r.2.payload) ∧
    (cidx :: recs.map Prod.fst).Nodup ∧
    (∀ q ∈ st.queue, q.1 ∈ st.visited) ∧
    BfsDisc g cidx recs

/-- Result of a shortest path query (`PathResult`). -/
structure PathResult where
  path : List Node
  edges : List Edge
  total_weight : ℚ
  found : Bool

/-- An empty result indicating no path found (`PathResult::not_found`). -/
def PathResult.not_found : PathResult := ⟨[], [], 0, false⟩

/-- The per-edge traversal cost the code hands to `astar`:
`(1.0 / e.weight().weight.max(0.01)) as u32`.  Since `max w (1/100) > 0`,
the value `1 / max w (1/100)` is positive, so the saturating truncating
`as u32` cast equals the floor, which for the positive rational
`den / num` is plain integer division. -/
def truncCost (w : ℚ) : Nat :=
  let m := max w (mkRat 1 100)
  ((m.den : ℤ) / m.num).toNat

/-- Total truncated cost of a sequence of arcs. -/
def pathCost (p : List PGEdge) : Nat :=
  (p.map (fun e => truncCost e.payload.weight)).sum

/-- All vertex-simple arc paths from `cur` to `target` that avoid `visited`
(the target itself is allowed to lie in `visited`), with fuel bounding the
path length.  This enumeration backs the contract model of
`petgraph::algo::astar`. -/
def simplePaths (g : DiGraph) (target : Nat) :
    Nat → Nat → List Nat → List (List PGEdge)
  | 0, _, _ => []
  | fuel + 1, cur, visited =>
    (g.outArcs cur).flatMap (fun e =>
      if e.tgt = target then [[e]]
      else if visited.contains e.tgt then []
      else (simplePaths g target fuel e.tgt (e.tgt :: visited)).map (e :: ·))

/-- First minimum-cost element of a list of arc paths. -/
def chooseMin (l : List (List PGEdge)) : Option (List PGEdge) :=
  match l with
  | [] => none
  | p :: ps =>
    some (ps.foldl (fun best q => if pathCost q < pathCost best then q else best) p)

/-- Fuel for the simple-path enumeration: a vertex-simple arc path has
pairwise distinct sources, all drawn from the arc list, so its length is at
most `|arcs|`. -/
def astarFuel (g : DiGraph) : Nat := g.arcs.length + 1

/-- Models the contract of `petgraph::algo::astar` with the zero heuristic
the code passes (uniform-cost search): returns a path from `s` to `t` of
minimum total edge cost, or `none` when no path exists.  Since edge costs
are nonnegative, a minimum-cost path may be chosen vertex-simple. -/
def astarModel (g : DiGraph) (s t : Nat) : Option (List PGEdge) :=
  chooseMin (simplePaths g t (astarFuel g) s [s])

/-- Consecutive pairs of a list (`windows(2)` over the path indices). -/
def pairWindows : List Nat → List (Nat × Nat)
  | a :: b :: rest => (a, b) :: pairWindows (b :: rest)
  | _ => []

/-- Find the shortest path between two nodes (`shortest_path`). -/
def shortest_path (g : GraphData) (from_id to_id : String) :
    Except Error PathResult :=
  match g.get_index from_id with
  | none => .ok .not_found
  | some from_idx =>
    match g.get_index to_id with
    | none => .ok .not_found
    | some to_idx =>
      if from_idx = to_idx then
        .ok ⟨[g.graph.nodeAt from_idx], [], 0, true⟩
      else
        match astarModel g.graph from_idx to_idx with
        | none => .ok .not_found
        | some ep =>
          let path_indices := from_idx :: ep.map (·.tgt)
          let path := path_indices.map g.graph.nodeAt
          let edges := (pairWindows path_indices).filterMap
            (fun p => g.graph.findEdge p.1 p.2)
          .ok ⟨path, edges, (edges.map (·.weight)).sum, true⟩

/-- Result of prerequisites analysis (`PrerequisitesResult`). -/
structure PrerequisitesResult where
  ordered : List Node
  target : Node
  has_cycles : Bool

/-- The backwards BFS of `prerequisites_sorted`: state is the collected
prerequisite set (in insertion order) and the work queue.  As in `bfsLoop`,
each enqueued index is a freshly collected arc source, so the fuel
`2 + 2 * |arcs|` never runs out. -/
def prereqLoop (g : DiGraph) : Nat → List Nat → List Nat → List Nat
  | 0, set, _ => set
  | _ + 1, set, [] => set
  | fuel + 1, set, current :: rest =>
    let step := (g.inArcs current).foldl
      (fun (acc : List Nat × List Nat) e =>
        if e.payload.relationship == .Prerequisite then
          if acc.1.contains e.src then acc
          else (acc.1 ++ [e.src], acc.2 ++ [e.src])
        else acc)
      (set, rest)
    prereqLoop g fuel step.1 step.2

/-- The transitive closure of incoming Prerequisite edges of the target. -/
def collectPrereqs (g : DiGraph) (target_idx : Nat) : List Nat :=
  prereqLoop g (2 + 2 * g.arcs.length) [] [target_idx]

/-- Vertex-simple cycles through `v` (first-arc decomposition), used to
decide cycle existence. -/
def cyclePathsAt (g : DiGraph) (v : Nat) : List (List PGEdge) :=
  (g.outArcs v).flatMap (fun e =>
    if e.tgt = v then [[e]]
    else (simplePaths g v (astarFuel g) e.tgt [e.tgt]).map (e :: ·))

/-- Decides whether the graph contains a directed cycle. -/
def hasCycleB (g : DiGraph) : Bool :=
  (g.arcs.map (·.src)).any (fun v => !(cyclePathsAt g v).isEmpty)

/-- One round of Kahn's algorithm: pick a remaining vertex with no incoming
arc from the remaining set. -/
def kahnLoop (g : DiGraph) : Nat → List Nat → List Nat → List Nat
  | 0, acc, rem => acc ++ rem
  | fuel + 1, acc, rem =>
    match rem.find? (fun v =>
        (g.arcs.filter (fun e => rem.contains e.src && e.tgt == v)).isEmpty) with
    | none => acc ++ rem
    | some v => kahnLoop g fuel (acc ++ [v]) (rem.erase v)

/-- A topological order of all vertex indices (used in the success case of
the toposort model). -/
def topoOrder (g : DiGraph) : List Nat :=
  kahnLoop g g.verts.length [] (List.range g.verts.length)

/-- Models the contract of `petgraph::algo::toposort`: fails exactly when
the graph contains a directed cycle, otherwise returns a topological order
of all node indices. -/
def toposortModel (g : DiGraph) : Except Unit (List Nat) :=
  if hasCycleB g then .error () else .ok (topoOrder g)

/-- Get prerequisites for a concept in topological order
(`prerequisites_sorted`). -/
def prerequisites_sorted (g : GraphData) (target_id : String) :
    Except Error PrerequisitesResult :=
  match g.get_node target_id with
  | none => .error (.NotFound "node" target_id)
  | some target_node =>
    match g.get_index target_id with
    | none => .error (.NotFound "node" target_id)
    | some target_idx =>
      let prereq_indices := collectPrereqs g.graph target_idx
      if prereq_indices.isEmpty then
        .ok ⟨[], target_node, false⟩
      else
        match toposortModel g.graph with
        | .ok all_sorted =>
          .ok ⟨(all_sorted.filter (prereq_indices.contains ·)).map g.graph.nodeAt,
               target_node, false⟩
        | .error _ =>
          .ok ⟨prereq_indices.map g.graph.nodeAt, target_node, true⟩

/-- The bridge-detection score of the node at `idx` (`find_bridges`):
`(min(in_degree, out_degree) + 1) * (distinct categories of the targets of
outgoing arcs + 1)`.  Note `Graph::edges(idx)` on a directed petgraph graph
iterates outgoing arcs only, so only out-neighbors contribute categories. -/
def bridgeScore (g : GraphData) (idx : Nat) : Nat :=
  let in_deg := (g.graph.inArcs idx).length
  let out_deg := (g.graph.outArcs idx).length
  let cats :=
    ((g.graph.outArcs idx).filterMap (fun e => (g.graph.nodeAt e.tgt).category)).dedup
  (min in_deg out_deg + 1) * (cats.length + 1)

/-- The bridge score of a node looked up by id; the `unwrap` of the code
never fails in consistent states, a missing index scores 0 here. -/
def scoreOfId (g : GraphData) (id : String) : Nat :=
  match assocGet id g.node_indices with
  | some idx => bridgeScore g idx
  | none => 0

/-- Find bridge concepts (`find_bridges`): score every node, sort by score
descending and keep the top `limit`.  Rust's stable `sort_by` with the
comparator `b.1.partial_cmp(&a.1)` is modelled by a stable insertion sort
under the same ordering — a stable sort's output is uniquely determined by
the comparator, so the two agree on every input. -/
def find_bridges (g : GraphData) (limit : Nat) : List Node :=
  let bridge_scores := g.nodes.map (fun p => (p.2.id, scoreOfId g p.2.id))
  let sorted := bridge_scores.insertionSort (fun a b => b.2 ≤ a.2)
  (sorted.take limit).filterMap (fun p => g.get_node p.1)

-- ===========================================================================
-- Builder helpers (builder.rs)
-- ===========================================================================

/-- ASCII lowercasing of a string.  Rust's `to_lowercase` is full Unicode;
all relationship names the table compares against are ASCII, for which the
two agree. -/
def lowerStr (s : String) : String := ⟨s.data.map Char.toLower⟩

/-- Parse a relationship string (`parse_relationship`): the lowercased input
is matched against the table of names; anything else becomes `Custom` of the
lowercased string. -/
def parse_relationship (s : String) : Relationship :=
  let l := lowerStr s
  if l == "prerequisite" || l == "prereq" then .Prerequisite
  else if l == "leads_to" || l == "leadsto" then .LeadsTo
  else if l == "relates_to" || l == "relatesto" || l == "related" then .RelatesTo
  else if l == "extends" then .Extends
  else if l == "introduces" then .Introduces
  else if l == "covers" then .Covers
  else if l == "variant_of" || l == "variantof" then .VariantOf
  else if l == "contrasts_with" || l == "contrastswith" then .ContrastsWith
  else if l == "answers_question" || l == "answersquestion"
       || l == "answers_questions" then .AnswersQuestion
  else .Custom l

/-- Manual edge definition loaded from JSON (`ManualEdge`); the Rust fields
`from`/`to` are again named `fromId`/`toId`. -/
structure ManualEdge where
  fromId : String
  toId : String
  relationship : String
  weight : Option ℚ

/-- State threaded through the `load_manual_edges` loop: the graph being
built, the dedup set of `(from, to, relationship)` triples, and the parts of
`BuildStats` the loop touches. -/
structure LoadState where
  graph : GraphData
  seen_edges : List (String × String × String)
  dangling_refs : List String
  deduped_edges : Nat
  loaded : Nat

/-- One iteration of the `load_manual_edges` loop: skip records with a
missing endpoint (recording a dangling ref) or an already seen triple
(counting a dedup), otherwise parse the relationship, default the weight and
insert the edge with `origin = Manual`. -/
def processManualEdge (st : LoadState) (manual : ManualEdge) : LoadState :=
  if !(st.graph.contains_node manual.fromId)
     || !(st.graph.contains_node manual.toId) then
    { st with dangling_refs := st.dangling_refs ++
        ["manual: " ++ manual.fromId ++ " -[" ++ manual.relationship
          ++ "]-> " ++ manual.toId] }
  else
    let edge_key := (manual.fromId, manual.toId, manual.relationship)
    if st.seen_edges.contains edge_key then
      { st with deduped_edges := st.deduped_edges + 1 }
    else
      let seen2 := st.seen_edges ++ [edge_key]
      let relationship := parse_relationship manual.relationship
      let weight := manual.weight.getD relationship.default_weight
      let edge : Edge :=
        ⟨manual.fromId, manual.toId, relationship, weight, .Manual⟩
      match st.graph.add_edge edge with
      | (.ok _, g2) =>
        { st with graph := g2, seen_edges := seen2, loaded := st.loaded + 1 }
      | (.error _, g2) => { st with graph := g2, seen_edges := seen2 }

/-- The record loop of `load_manual_edges` (file reading and JSON parsing
are outside the model). -/
def load_manual_edges (records : List ManualEdge) (st : LoadState) :
    LoadState :=
  records.foldl processManualEdge st

-- ===========================================================================
-- Directed arc paths
-- ===========================================================================

/-- A directed path in the petgraph graph, as the list of traversed arcs:
`IsEdgePath g s t p` holds when `p` leads from vertex `s` to vertex `t`. -/
def IsEdgePath (g : DiGraph) : Nat → Nat → List PGEdge → Prop
  | s, t, [] => s = t
  | s, t, e :: p => e ∈ g.arcs ∧ e.src = s ∧ IsEdgePath g e.tgt t p

instance instDecIsEdgePath (g : DiGraph) :
    ∀ (s t : Nat) (p : List PGEdge), Decidable (IsEdgePath g s t p)
  | s, t, [] => by unfold IsEdgePath; infer_instance
  | s, t, e :: p => by
    unfold IsEdgePath
    have := instDecIsEdgePath g e.tgt t p
    infer_instance

/-- The graph contains a directed cycle. -/
def HasCycle (g : DiGraph) : Prop :=
  ∃ (v : Nat) (p : List PGEdge), p ≠ [] ∧ IsEdgePath g v v p

/-- The final vertex of an arc path starting at `s`. -/
def endV (s : Nat) : List PGEdge → Nat
  | [] => s
  | e :: p => endV e.tgt p

/-- The vertex sequence of an arc path starting at `s`. -/
def nodeSeq (s : Nat) (p : List PGEdge) : List Nat := s :: p.map (·.tgt)

/-- The per-edge cost named by claim C1, `1 / max(edge.weight, 0.01)`, as an
exact rational (no truncation). -/
def realCost (w : ℚ) : ℚ := 1 / max w (mkRat 1 100)

/-- The total claim-C1 cost of a list of edges. -/
def realPathCost (es : List Edge) : ℚ := (es.map (fun e => realCost e.weight)).sum

/-- Whether a shortest-path call reported `found = true`. -/
def pathFound : Except Error PathResult → Bool
  | .ok r => r.found
  | .error _ => false

/-- The node ids along the path of a shortest-path result. -/
def pathIdsOf : Except Error PathResult → List String
  | .ok r => r.path.map (·.id)
  | .error _ => []

/-- The edges of a shortest-path result. -/
def pathEdgesOf : Except Error PathResult → List Edge
  | .ok r => r.edges
  | .error _ => []

-- ===========================================================================
-- Spec-side definitions used to compare against the code
-- ===========================================================================

/-- The case-insensitive lookup table of relationship names as the amended
claim C7 describes it: the claim's listed names plus the concatenated
aliases the code also accepts (`leadsto`, `relatesto`, `variantof`,
`contrastswith`, `answersquestion`) and the plural `answers_questions`. -/
def relationshipNameTable : List (String × Relationship) :=
  [("prerequisite", .Prerequisite), ("prereq", .Prerequisite),
   ("leads_to", .LeadsTo), ("leadsto", .LeadsTo),
   ("relates_to", .RelatesTo), ("relatesto", .RelatesTo),
   ("related", .RelatesTo),
   ("extends", .Extends), ("introduces", .Introduces), ("covers", .Covers),
   ("variant_of", .VariantOf), ("variantof", .VariantOf),
   ("contrasts_with", .ContrastsWith), ("contrastswith", .ContrastsWith),
   ("answers_question", .AnswersQuestion),
   ("answersquestion", .AnswersQuestion),
   ("answers_questions", .AnswersQuestion)]

/-- The amended claim C7's parse function: look the lowercased name up in
the table; unmatched names become `Custom` of the lowercased string. -/
def relationshipOfName (s : String) : Relationship :=
  match relationshipNameTable.find? (fun p => lowerStr s == p.1) with
  | some p => p.2
  | none => .Custom (lowerStr s)

/-- The bridge score exactly as claim C8 words it: the category count ranges
over the node's neighbors in BOTH directions (targets of outgoing and
sources of incoming edges), not only the outgoing ones the code uses. -/
def claimBridgeScore (g : GraphData) (id : String) : Nat :=
  match assocGet id g.node_indices with
  | none => 0
  | some idx =>
    let in_deg := (g.graph.inArcs idx).length
    let out_deg := (g.graph.outArcs idx).length
    let neighbors := (g.graph.outArcs idx).map (fun e => g.graph.nodeAt e.tgt)
      ++ (g.graph.inArcs idx).map (fun e => g.graph.nodeAt e.src)
    let cats := (neighbors.filterMap (·.category)).dedup
    (min in_deg out_deg + 1) * (cats.length + 1)

-- ===========================================================================
-- Mutation sequences (claim C3)
-- ===========================================================================

/-- A runtime mutation of `GraphData` (claim C3 ranges over sequences of
these). -/
inductive Op where
  | addNode (n : Node)
  | addEdge (e : Edge)
  | removeNode (id : String)

/-- Apply one mutation, discarding the returned value. -/
def applyOp (g : GraphData) : Op → GraphData
  | .addNode n => (g.add_node n).2
  | .addEdge e => (g.add_edge e).2
  | .removeNode id => (g.remove_node id).2

/-- The id→index pairs of a vertex list, in index order (the contents of
`node_indices` in every reachable state). -/
def idxPairs (verts : List Node) : List (String × Nat) :=
  verts.enum.map (fun p => ((p.2).id, p.1))

/-- Well-formedness of a `GraphData` value: the invariant every state
reachable by the runtime mutation API satisfies.  `node_indices` lists
exactly the `(id, index)` pairs of the vertex list, vertex ids are unique,
every arc's endpoints are in range with payload `from`/`to` naming exactly
the endpoint vertices, the flat edge list mirrors the arc payloads, and the
`nodes` table holds exactly the vertex ids. -/
structure WFG (g : GraphData) : Prop where
  idx_eq : g.node_indices = idxPairs g.graph.verts
  ids_nodup : (g.graph.verts.map (·.id)).Nodup
  arcs_wf : ∀ e ∈ g.graph.arcs,
    e.src < g.graph.verts.length ∧ e.tgt < g.graph.verts.length ∧
    (e.payload).fromId = (g.graph.verts.getD e.src (Node.new "" "")).id ∧
    (e.payload).toId = (g.graph.verts.getD e.tgt (Node.new "" "")).id
  edges_eq : g.edges = g.graph.arcs.map (·.payload)
  nodes_keys : ∀ id, (assocGet id g.nodes).isSome = true
    ↔ id ∈ g.graph.verts.map (·.id)

-- ===========================================================================
-- Concrete graphs used by witnesses and counterexamples
-- ===========================================================================

/-- The chain of 20 nodes `n0 → n1 → ⋯ → n19` from the spec's example. -/
def chain20 : GraphData :=
  let withNodes := ((List.range 20).map
      (fun i => Node.new ("n" ++ toString i) ("N" ++ toString i))).foldl
    (fun g n => (g.add_node n).2) GraphData.new
  ((List.range 19).map
      (fun i => Edge.new ("n" ++ toString i) ("n" ++ toString (i + 1)) .LeadsTo)).foldl
    (fun g e => (g.add_edge e).2) withNodes

/-- A one-node graph holding only node `a`, used by witnesses. -/
def oneNodeGraph : GraphData := (GraphData.new.add_node (Node.new "a" "A")).2

/-- An edge whose target id is absent from `oneNodeGraph`. -/
def missingEdge : Edge := Edge.new "a" "missing" .Prerequisite

/-- A two-node graph holding nodes `a` and `b`. -/
def twoNodeGraph : GraphData :=
  ((GraphData.new.add_node (Node.new "a" "A")).2.add_node (Node.new "b" "B")).2

/-- Initial loader state over `twoNodeGraph`. -/
def c7state : LoadState := ⟨twoNodeGraph, [], [], 0, 0⟩

/-- A graph with a Prerequisite cycle `a ⇄ b` far away from node `t`, which
has no prerequisites. -/
def cycGraph : GraphData :=
  let g0 := (GraphData.new.add_node (Node.new "a" "A")).2
  let g1 := (g0.add_node (Node.new "b" "B")).2
  let g2 := (g1.add_node (Node.new "t" "T")).2
  let g3 := (g2.add_edge (Edge.new "a" "b" .Prerequisite)).2
  (g3.add_edge (Edge.new "b" "a" .Prerequisite)).2

/-- The neighborhood of `a` in `cycGraph` at radius 5: node `b` is
discovered by the arc `a → b`; the arc `b → a`, both of whose endpoints are
by then already discovered, is not recorded. -/
def c9res : NeighborhoodResult :=
  { center := Node.new "a" "A",
    nodes := [Node.new "b" "B"],
    edges := [Edge.new "a" "b" .Prerequisite],
    distances := [("a", 0), ("b", 1)] }

/-- Edge `s → m` of the C1 counterexample graph, weight 9/16 (exactly
representable in `f32`; cost `16/9 ≈ 1.78`, truncated to 1). -/
def c1sm : Edge := (Edge.new "s" "m" .RelatesTo).with_weight (mkRat 9 16)

/-- Edge `m → t` of the C1 counterexample graph, weight 9/16. -/
def c1mt : Edge := (Edge.new "m" "t" .RelatesTo).with_weight (mkRat 9 16)

/-- Edge `s → t` of the C1 counterexample graph, weight 5/16 (exactly
representable in `f32`; cost `16/5 = 3.2`, truncated to 3). -/
def c1st : Edge := (Edge.new "s" "t" .RelatesTo).with_weight (mkRat 5 16)

/-- The C1 counterexample graph: the two-hop route `s → m → t` has truncated
cost `1 + 1 = 2` but exact cost `16/9 + 16/9 = 32/9 ≈ 3.56`, while the
direct edge `s → t` has truncated cost 3 but exact cost `16/5 = 3.2`. -/
def c1graph : GraphData :=
  let g0 := (GraphData.new.add_node (Node.new "s" "S")).2
  let g1 := (g0.add_node (Node.new "m" "M")).2
  let g2 := (g1.add_node (Node.new "t" "T")).2
  let g3 := (g2.add_edge c1sm).2
  let g4 := (g3.add_edge c1mt).2
  (g4.add_edge c1st).2

/-- The C8 counterexample graph: node `a` has four in-neighbors of four
distinct categories but no out-edges (code score 1, claim score 5), while
node `z` has a self-loop and category `Z` (code score 4, claim score 4). -/
def c8graph : GraphData :=
  let g0 := (GraphData.new.add_node (Node.new "a" "A")).2
  let g1 := (g0.add_node ((Node.new "b" "B").with_category "X")).2
  let g2 := (g1.add_node ((Node.new "c" "C").with_category "Y")).2
  let g3 := (g2.add_node ((Node.new "d" "D").with_category "W")).2
  let g4 := (g3.add_node ((Node.new "e" "E").with_category "V")).2
  let g5 := (g4.add_node ((Node.new "z" "Z").with_category "Z")).2
  let g6 := (g5.add_edge (Edge.new "b" "a" .RelatesTo)).2
  let g7 := (g6.add_edge (Edge.new "c" "a" .RelatesTo)).2
  let g8 := (g7.add_edge (Edge.new "d" "a" .RelatesTo)).2
  let g9 := (g8.add_edge (Edge.new "e" "a" .RelatesTo)).2
  (g9.add_edge (Edge.new "z" "z" .RelatesTo)).2

-- ===========================================================================
-- Association-list lemmas
-- ===========================================================================

theorem assocGet_nil {ν : Type} (k : String) : assocGet k ([] : List (String × ν)) = none := rfl

theorem assocGet_cons {ν : Type} (k : String) (p : String × ν) (m : List (String × ν)) :
    assocGet k (p :: m) = if p.1 = k then some p.2 else assocGet k m := by
  simp only [assocGet, List.find?]
  by_cases h : p.1 = k
  · simp [h]
  · simp [h, beq_eq_false_iff_ne.mpr h]

theorem assocGet_append {ν : Type} (k : String) (m₁ m₂ : List (String × ν)) :
    assocGet k (m₁ ++ m₂) =
      match assocGet k m₁ with
      | some v => some v
      | none => assocGet k m₂ := by
  induction m₁ with
  | nil => simp [assocGet_nil]
  | cons p m ih =>
    rw [List.cons_append, assocGet_cons, assocGet_cons]
    by_cases h : p.1 = k <;> simp [h, ih]

theorem assocGet_map_replace {ν : Type} (k : String) (v : ν)
    (m : List (String × ν)) (hm : (assocGet k m).isSome) :
    assocGet k (m.map (fun p => if p.1 == k then (k, v) else p)) = some v := by
  induction m with
  | nil => simp [assocGet] at hm
  | cons p m ih =>
    rw [assocGet_cons] at hm
    rw [List.map_cons]
    by_cases h : p.1 = k
    · rw [if_pos (by simpa using h), assocGet_cons]
      simp
    · rw [if_neg (by simpa using h), assocGet_cons, if_neg h]
      rw [if_neg h] at hm
      exact ih hm

theorem assocGet_map_replace_fresh {ν : Type} (k k' : String) (v : ν)
    (m : List (String × ν)) (hk : assocGet k m = none) (hne : k' ≠ k) :
    assocGet k (m.map (fun p => if p.1 == k' then (k', v) else p)) = none := by
  induction m with
  | nil => simp [assocGet]
  | cons p m ih =>
    rw [assocGet_cons] at hk
    by_cases h : p.1 = k
    · simp [h] at hk
    · rw [if_neg h] at hk
      rw [List.map_cons]
      by_cases h' : p.1 = k'
      · rw [if_pos (by simpa using h'), assocGet_cons, if_neg hne]
        exact ih hk
      · rw [if_neg (by simpa using h'), assocGet_cons, if_neg h]
        exact ih hk

theorem assocGet_insert_self {ν : Type} (k : String) (v : ν) (m : List (String × ν)) :
    assocGet k (assocInsert k v m) = some v := by
  unfold assocInsert
  cases hm : assocGet k m with
  | none =>
    simp only [hm, Option.isSome_none, Bool.false_eq_true, if_false]
    rw [assocGet_append, hm]
    simp [assocGet_cons]
  | some w =>
    simp only [hm, Option.isSome_some, if_true]
    exact assocGet_map_replace k v m (by simp [hm])

theorem assocGet_insert_fresh {ν : Type} (k k' : String) (v : ν)
    (m : List (String × ν)) (hk : assocGet k m = none) (hne : k' ≠ k) :
    assocGet k (assocInsert k' v m) = none := by
  unfold assocInsert
  cases hm : assocGet k' m with
  | none =>
    simp only [hm, Option.isSome_none, Bool.false_eq_true, if_false]
    rw [assocGet_append, hk]
    simp [assocGet_cons, assocGet_nil, hne]
  | some w =>
    simp only [hm, Option.isSome_some, if_true]
    exact assocGet_map_replace_fresh k k' v m hk hne

-- ===========================================================================
-- Claim C4: the neighborhood radius is clamped at 10
-- ===========================================================================

/-- Claim C4: for every graph, center id, relationship filter and requested
radius at least 10, `neighborhood` returns exactly the same result as with
radius 10, because the radius is clamped to `MAX_BFS_DEPTH = 10`. -/
theorem claim_C4 (g : GraphData) (center_id : String) (radius : Nat)
    (filter : Option (List Relationship)) (h : 10 ≤ radius) :
    neighborhood g center_id radius filter
      = neighborhood g center_id 10 filter := by
  unfold neighborhood
  rw [show min radius MAX_BFS_DEPTH = min 10 MAX_BFS_DEPTH from by
    simp only [MAX_BFS_DEPTH]; omega]

/-- Witness for C4: on the 20-node chain, radius 1000 behaves identically to
radius 10. -/
theorem claim_C4_witness :
    10 ≤ 1000 ∧
    neighborhood chain20 "n0" 1000 none = neighborhood chain20 "n0" 10 none :=
  ⟨by decide, claim_C4 chain20 "n0" 1000 none (by decide)⟩

-- ===========================================================================
-- Claim C5: add_edge with a missing endpoint fails and changes nothing
-- ===========================================================================

/-- Claim C5: for every `GraphData` and every edge one of whose endpoints is
not a present node id, `add_edge` returns a NotFound error and the state is
unchanged — in particular `edge_count` and the flat edge list are
unchanged. -/
theorem claim_C5 (g : GraphData) (e : Edge)
    (h : g.get_index e.fromId = none ∨ g.get_index e.toId = none) :
    ((g.add_edge e).1 = .error (.NotFound "node" e.fromId) ∨
     (g.add_edge e).1 = .error (.NotFound "node" e.toId)) ∧
    (g.add_edge e).2 = g ∧
    (g.add_edge e).2.edge_count = g.edge_count ∧
    (g.add_edge e).2.edges = g.edges := by
  have main : ((g.add_edge e).1 = .error (.NotFound "node" e.fromId) ∨
      (g.add_edge e).1 = .error (.NotFound "node" e.toId)) ∧
      (g.add_edge e).2 = g := by
    unfold GraphData.add_edge
    rcases h with h | h
    · rw [show assocGet e.fromId g.node_indices = none from h]
      exact ⟨Or.inl rfl, rfl⟩
    · cases hf : assocGet e.fromId g.node_indices with
      | none => exact ⟨Or.inl rfl, rfl⟩
      | some from_idx =>
        rw [show assocGet e.toId g.node_indices = none from h]
        exact ⟨Or.inr rfl, rfl⟩
  exact ⟨main.1, main.2, by rw [main.2], by rw [main.2]⟩

/-- Witness for C5: adding an edge towards a missing node id fails with
NotFound and leaves the one-node graph unchanged. -/
theorem claim_C5_witness :
    ((oneNodeGraph.add_edge missingEdge).1
        = .error (.NotFound "node" missingEdge.fromId) ∨
     (oneNodeGraph.add_edge missingEdge).1
        = .error (.NotFound "node" missingEdge.toId)) ∧
    (oneNodeGraph.add_edge missingEdge).2 = oneNodeGraph ∧
    (oneNodeGraph.add_edge missingEdge).2.edge_count = oneNodeGraph.edge_count ∧
    (oneNodeGraph.add_edge missingEdge).2.edges = oneNodeGraph.edges :=
  claim_C5 oneNodeGraph missingEdge (Or.inr (by decide))

-- ===========================================================================
-- Claim C6: add_node with an existing id is an idempotent no-op
-- ===========================================================================

/-- Claim C6: adding a node whose id is already present is a no-op returning
the stored index (so the node count and the stored node are unchanged), and
adding the same node twice returns the same identity both times with the
state of the first call preserved. -/
theorem claim_C6 (g : GraphData) (n : Node) :
    (∀ idx, g.get_index n.id = some idx → g.add_node n = (idx, g)) ∧
    (g.add_node n).2.add_node n = ((g.add_node n).1, (g.add_node n).2) := by
  constructor
  · intro idx h
    unfold GraphData.add_node
    rw [show assocGet n.id g.node_indices = some idx from h]
  · cases hg : assocGet n.id g.node_indices with
    | some idx =>
      have h1 : g.add_node n = (idx, g) := by
        unfold GraphData.add_node
        rw [hg]
      rw [h1]
      exact h1
    | none =>
      have h1 : g.add_node n
          = (g.graph.verts.length,
             { graph := { g.graph with verts := g.graph.verts ++ [n] },
               node_indices :=
                 assocInsert n.id g.graph.verts.length g.node_indices,
               nodes := assocInsert n.id n g.nodes,
               edges := g.edges }) := by
        unfold GraphData.add_node DiGraph.addNode
        rw [hg]
      rw [h1]
      unfold GraphData.add_node
      rw [show assocGet n.id
          (assocInsert n.id g.graph.verts.length g.node_indices)
            = some g.graph.verts.length from assocGet_insert_self _ _ _]

/-- Witness for C6: after inserting node `a`, re-adding it returns index 0
and the unchanged state. -/
theorem claim_C6_witness :
    (GraphData.new.add_node (Node.new "a" "A")).2.add_node (Node.new "a" "A2")
      = (0, (GraphData.new.add_node (Node.new "a" "A")).2) :=
  (claim_C6 (GraphData.new.add_node (Node.new "a" "A")).2 (Node.new "a" "A2")).1
    0 (by decide)

-- ===========================================================================
-- Claim C7: manual-edge relationship parsing and weight defaulting
-- ===========================================================================

theorem parse_eq_table (s : String) :
    parse_relationship s = relationshipOfName s := by
  unfold parse_relationship relationshipOfName relationshipNameTable
  by_cases h1 : lowerStr s = "prerequisite"
  · simp only [h1]; decide
  by_cases h2 : lowerStr s = "prereq"
  · simp only [h2]; decide
  by_cases h3 : lowerStr s = "leads_to"
  · simp only [h3]; decide
  by_cases h4 : lowerStr s = "leadsto"
  · simp only [h4]; decide
  by_cases h5 : lowerStr s = "relates_to"
  · simp only [h5]; decide
  by_cases h6 : lowerStr s = "relatesto"
  · simp only [h6]; decide
  by_cases h7 : lowerStr s = "related"
  · simp only [h7]; decide
  by_cases h8 : lowerStr s = "extends"
  · simp only [h8]; decide
  by_cases h9 : lowerStr s = "introduces"
  · simp only [h9]; decide
  by_cases h10 : lowerStr s = "covers"
  · simp only [h10]; decide
  by_cases h11 : lowerStr s = "variant_of"
  · simp only [h11]; decide
  by_cases h12 : lowerStr s = "variantof"
  · simp only [h12]; decide
  by_cases h13 : lowerStr s = "contrasts_with"
  · simp only [h13]; decide
  by_cases h14 : lowerStr s = "contrastswith"
  · simp only [h14]; decide
  by_cases h15 : lowerStr s = "answers_question"
  · simp only [h15]; decide
  by_cases h16 : lowerStr s = "answersquestion"
  · simp only [h16]; decide
  by_cases h17 : lowerStr s = "answers_questions"
  · simp only [h17]; decide
  simp [List.find?, beq_eq_false_iff_ne.mpr h1, beq_eq_false_iff_ne.mpr h2,
    beq_eq_false_iff_ne.mpr h3, beq_eq_false_iff_ne.mpr h4,
    beq_eq_false_iff_ne.mpr h5, beq_eq_false_iff_ne.mpr h6,
    beq_eq_false_iff_ne.mpr h7, beq_eq_false_iff_ne.mpr h8,
    beq_eq_false_iff_ne.mpr h9, beq_eq_false_iff_ne.mpr h10,
    beq_eq_false_iff_ne.mpr h11, beq_eq_false_iff_ne.mpr h12,
    beq_eq_false_iff_ne.mpr h13, beq_eq_false_iff_ne.mpr h14,
    beq_eq_false_iff_ne.mpr h15, beq_eq_false_iff_ne.mpr h16,
    beq_eq_false_iff_ne.mpr h17]

/-- Counterexample for C7: the record name `leadsto` matches none of the
names the claim lists, yet the inserted edge's relationship is `LeadsTo`
rather than `Custom "leadsto"`; also `Custom` keeps the lowercased name,
not the original one. -/
theorem claim_C7_counterexample :
    (processManualEdge c7state ⟨"a", "b", "leadsto", none⟩).graph.edges
      = [⟨"a", "b", .LeadsTo, 1, .Manual⟩] ∧
    Relationship.LeadsTo ≠ .Custom "leadsto" ∧
    parse_relationship "Implies" = .Custom "implies" ∧
    parse_relationship "Implies" ≠ .Custom "Implies" := by
  refine ⟨by decide, by decide, by decide, by decide⟩

/-- Claim C7 (amended): a manual-edges record with present endpoints and an
unseen `(from, to, relationship)` triple selects its relationship variant by
a case-insensitive lookup of the claim's names extended with the
concatenated aliases (`leadsto`, `relatesto`, `variantof`, `contrastswith`,
`answersquestion`) and `answers_questions`; unmatched strings become
`Custom` of the lowercased name; a missing weight defaults to the selected
relationship's default weight, and the edge is inserted with origin
Manual. -/
theorem claim_C7_amended (st : LoadState) (m : ManualEdge)
    (hf : st.graph.contains_node m.fromId = true)
    (ht : st.graph.contains_node m.toId = true)
    (hs : st.seen_edges.contains (m.fromId, m.toId, m.relationship) = false)
    (ifx itx : Nat)
    (hif : st.graph.get_index m.fromId = some ifx)
    (hit : st.graph.get_index m.toId = some itx) :
    (∀ s : String, parse_relationship s = relationshipOfName s) ∧
    (processManualEdge st m).graph.edges
      = st.graph.edges ++
        [⟨m.fromId, m.toId, relationshipOfName m.relationship,
          m.weight.getD (relationshipOfName m.relationship).default_weight,
          .Manual⟩] := by
  refine ⟨parse_eq_table, ?_⟩
  rw [GraphData.get_index] at hif hit
  rw [← parse_eq_table m.relationship]
  unfold processManualEdge
  simp only [hf, ht, hs, Bool.not_true, Bool.or_self, Bool.false_eq_true,
    if_false]
  have hadd : st.graph.add_edge
      ⟨m.fromId, m.toId, parse_relationship m.relationship,
        m.weight.getD (parse_relationship m.relationship).default_weight,
        .Manual⟩
      = (.ok (), { st.graph with
          graph := st.graph.graph.addEdge ifx itx
            ⟨m.fromId, m.toId, parse_relationship m.relationship,
              m.weight.getD (parse_relationship m.relationship).default_weight,
              .Manual⟩,
          edges := st.graph.edges ++
            [⟨m.fromId, m.toId, parse_relationship m.relationship,
              m.weight.getD (parse_relationship m.relationship).default_weight,
              .Manual⟩] }) := by
    unfold GraphData.add_edge
    rw [hif, hit]
  rw [hadd]

/-- Witness for C7 (amended): inserting the record
`{from: a, to: b, relationship: "PREREQ"}` (no weight) into the fresh
two-node graph. -/
theorem claim_C7_witness :
    (∀ s : String, parse_relationship s = relationshipOfName s) ∧
    (processManualEdge c7state ⟨"a", "b", "PREREQ", none⟩).graph.edges
      = c7state.graph.edges ++
        [⟨"a", "b", relationshipOfName "PREREQ",
          (Option.none).getD (relationshipOfName "PREREQ").default_weight,
          .Manual⟩] :=
  claim_C7_amended c7state ⟨"a", "b", "PREREQ", none⟩ (by decide) (by decide)
    (by decide) 0 1 (by decide) (by decide)

-- ===========================================================================
-- Claim C9: one discovery edge per discovered neighborhood node
-- ===========================================================================

theorem bfsEdgeStep_stale (g : DiGraph) (filter : Option (List Relationship))
    (dist : Nat) (pick : PGEdge → Nat) (st : BfsState) (e : PGEdge)
    (h : (match filter with
      | some f => f.contains e.payload.relationship
      | none => true) = false ∨ pick e ∈ st.visited) :
    bfsEdgeStep g filter dist pick st e = st := by
  unfold bfsEdgeStep
  rcases h with h | h
  · rw [h]
    exact rfl
  · simp [h]

theorem bfsEdgeStep_fresh (g : DiGraph) (filter : Option (List Relationship))
    (dist : Nat) (pick : PGEdge → Nat) (st : BfsState) (e : PGEdge)
    (hkeep : (match filter with
      | some f => f.contains e.payload.relationship
      | none => true) = true)
    (hnb : pick e ∉ st.visited) :
    bfsEdgeStep g filter dist pick st e =
      { visited := pick e :: st.visited,
        distances := assocInsert (g.nodeAt (pick e)).id (dist + 1) st.distances,
        queue := st.queue ++ [(pick e, dist + 1)],
        result_nodes := st.result_nodes ++ [g.nodeAt (pick e)],
        result_edges := st.result_edges ++ [e.payload] } := by
  unfold bfsEdgeStep
  rw [hkeep]
  simp [hnb]

theorem bfsEdgeStep_visited_mono (g : DiGraph)
    (filter : Option (List Relationship)) (dist : Nat) (pick : PGEdge → Nat)
    (st : BfsState) (e : PGEdge) :
    ∀ x, x ∈ st.visited → x ∈ (bfsEdgeStep g filter dist pick st e).visited := by
  intro x hx
  cases hkeep : (match filter with
    | some f => f.contains e.payload.relationship
    | none => true) with
  | false =>
    rw [bfsEdgeStep_stale g filter dist pick st e (Or.inl hkeep)]
    exact hx
  | true =>
    by_cases hnb : pick e ∈ st.visited
    · rw [bfsEdgeStep_stale g filter dist pick st e (Or.inr hnb)]
      exact hx
    · rw [bfsEdgeStep_fresh g filter dist pick st e hkeep hnb]
      exact List.mem_cons_of_mem _ hx

theorem bfsDisc_append (g : DiGraph) (cidx : Nat) (recs : List (Nat × PGEdge))
    (nb : Nat) (e : PGEdge) (h : BfsDisc g cidx recs) (he : e ∈ g.arcs)
    (hend : (e.tgt = nb ∧ e.src ∈ cidx :: recs.map Prod.fst) ∨
      (e.src = nb ∧ e.tgt ∈ cidx :: recs.map Prod.fst)) :
    BfsDisc g cidx (recs ++ [(nb, e)]) := by
  intro i hi
  have hmap : (recs ++ [(nb, e)]).map Prod.fst = recs.map Prod.fst ++ [nb] := by
    simp
  by_cases hlt : i < recs.length
  · have hgi : (recs ++ [(nb, e)])[i] = recs[i] := List.getElem_append_left hlt
    have htk : ((recs ++ [(nb, e)]).map Prod.fst).take i
        = (recs.map Prod.fst).take i := by
      rw [hmap]
      exact List.take_append_of_le_length (by simpa using Nat.le_of_lt hlt)
    rw [hgi, htk]
    exact h i hlt
  · have hieq : i = recs.length := by
      have hlen := hi
      simp only [List.length_append, List.length_cons, List.length_nil] at hlen
      omega
    subst hieq
    have hgi : (recs ++ [(nb, e)])[recs.length] = (nb, e) := by
      simp
    have htk : ((recs ++ [(nb, e)]).map Prod.fst).take recs.length
        = recs.map Prod.fst := by
      rw [hmap]
      exact List.take_left' (by simp)
    rw [hgi, htk]
    exact ⟨he, hend⟩

theorem bfsEdgeStep_inv (g : DiGraph) (filter : Option (List Relationship))
    (dist : Nat) (pick : PGEdge → Nat) (cidx : Nat) (st : BfsState)
    (e : PGEdge) (hinv : BfsInv g cidx st) (he : e ∈ g.arcs)
    (hpe : (pick e = e.tgt ∧ e.src ∈ st.visited) ∨
      (pick e = e.src ∧ e.tgt ∈ st.visited)) :
    BfsInv g cidx (bfsEdgeStep g filter dist pick st e) := by
  cases hkeep : (match filter with
    | some f => f.contains e.payload.relationship
    | none => true) with
  | false =>
    rw [bfsEdgeStep_stale g filter dist pick st e (Or.inl hkeep)]
    exact hinv
  | true =>
    by_cases hnb : pick e ∈ st.visited
    · rw [bfsEdgeStep_stale g filter dist pick st e (Or.inr hnb)]
      exact hinv
    · rw [bfsEdgeStep_fresh g filter dist pick st e hkeep hnb]
      obtain ⟨recs, hv, hn, hE, hnd, hq, hd⟩ := hinv
      have hmemconv : ∀ x, x ∈ st.visited → x ∈ cidx :: recs.map Prod.fst := by
        intro x hx
        rw [hv] at hx
        rcases List.mem_append.mp hx with h1 | h2
        · exact List.mem_cons_of_mem _ (List.mem_reverse.mp h1)
        · have hx2 : x = cidx := by simpa using h2
          subst hx2
          exact List.mem_cons_self _ _
      have hfr : pick e ≠ cidx ∧ pick e ∉ recs.map Prod.fst := by
        constructor
        · intro hc
          refine hnb ?_
          rw [hv, hc]
          exact List.mem_append_right _ (List.mem_singleton_self _)
        · intro hc
          refine hnb ?_
          rw [hv]
          exact List.mem_append_left _ (List.mem_reverse.mpr hc)
      refine ⟨recs ++ [(pick e, e)], ?_, ?_, ?_, ?_, ?_, ?_⟩
      · simp [hv]
      · simp [hn]
      · simp [hE]
      · have hcons : cidx :: (recs ++ [(pick e, e)]).map Prod.fst
            = (cidx :: recs.map Prod.fst) ++ [pick e] := by simp
        rw [hcons, List.nodup_append]
        refine ⟨hnd, List.nodup_singleton _, ?_⟩
        intro a ha hb
        have hb2 : a = pick e := by simpa using hb
        subst hb2
        rcases List.mem_cons.mp ha with h1 | h2
        · exact hfr.1 h1
        · exact hfr.2 h2
      · intro q hqm
        rcases List.mem_append.mp hqm with h1 | h2
        · exact List.mem_cons_of_mem _ (hq q h1)
        · have hq2 : q = (pick e, dist + 1) := by simpa using h2
          subst hq2
          exact List.mem_cons_self _ _
      · refine bfsDisc_append g cidx recs (pick e) e hd he ?_
        rcases hpe with ⟨hp1, hp2⟩ | ⟨hp1, hp2⟩
        · exact Or.inl ⟨hp1.symm, hmemconv _ hp2⟩
        · exact Or.inr ⟨hp1.symm, hmemconv _ hp2⟩

theorem bfsFold_inv (g : DiGraph) (filter : Option (List Relationship))
    (dist : Nat) (pick : PGEdge → Nat) (cidx cur : Nat) :
    ∀ (arcs : List PGEdge) (st : BfsState),
      (∀ e ∈ arcs, e ∈ g.arcs ∧
        (pick e = e.tgt ∧ e.src = cur ∨ pick e = e.src ∧ e.tgt = cur)) →
      BfsInv g cidx st → cur ∈ st.visited →
      BfsInv g cidx (arcs.foldl (bfsEdgeStep g filter dist pick) st) ∧
        cur ∈ (arcs.foldl (bfsEdgeStep g filter dist pick) st).visited := by
  intro arcs
  induction arcs with
  | nil => intro st _ hinv hcur; exact ⟨hinv, hcur⟩
  | cons e arcs ih =>
    intro st harcs hinv hcur
    have he := harcs e (List.mem_cons_self _ _)
    have hpe : (pick e = e.tgt ∧ e.src ∈ st.visited) ∨
        (pick e = e.src ∧ e.tgt ∈ st.visited) := by
      rcases he.2 with ⟨h1, h2⟩ | ⟨h1, h2⟩
      · refine Or.inl ⟨h1, ?_⟩
        rw [h2]
        exact hcur
      · refine Or.inr ⟨h1, ?_⟩
        rw [h2]
        exact hcur
    exact ih (bfsEdgeStep g filter dist pick st e)
      (fun e2 he2 => harcs e2 (List.mem_cons_of_mem _ he2))
      (bfsEdgeStep_inv g filter dist pick cidx st e hinv he.1 hpe)
      (bfsEdgeStep_visited_mono g filter dist pick st e cur hcur)

theorem bfsLoop_inv (g : DiGraph) (filter : Option (List Relationship))
    (radius : Nat) (cidx : Nat) :
    ∀ (fuel : Nat) (st : BfsState), BfsInv g cidx st →
      BfsInv g cidx (bfsLoop g filter radius fuel st) := by
  intro fuel
  induction fuel with
  | zero => intro st h; exact h
  | succ fuel ih =>
    intro st h
    unfold bfsLoop
    cases hq : st.queue with
    | nil => exact h
    | cons front rest =>
      have hstep : BfsInv g cidx { st with queue := rest } := by
        obtain ⟨recs, hv, hn, hE, hnd, hqi, hd⟩ := h
        refine ⟨recs, hv, hn, hE, hnd, ?_, hd⟩
        intro q hqm
        refine hqi q ?_
        rw [hq]
        exact List.mem_cons_of_mem _ hqm
      have hcur : front.1 ∈ st.visited := by
        obtain ⟨recs, hv, hn, hE, hnd, hqi, hd⟩ := h
        refine hqi front ?_
        rw [hq]
        exact List.mem_cons_self _ _
      by_cases hdist : radius ≤ front.2
      · simpa [hdist] using ih _ hstep
      · simp only [hdist, if_false]
        have hout : ∀ e ∈ g.outArcs front.1, e ∈ g.arcs ∧
            (e.tgt = e.tgt ∧ e.src = front.1 ∨ e.tgt = e.src ∧ e.tgt = front.1) := by
          intro e hme
          rw [DiGraph.outArcs, List.mem_filter] at hme
          exact ⟨hme.1, Or.inl ⟨rfl, by simpa using hme.2⟩⟩
        have hin : ∀ e ∈ g.inArcs front.1, e ∈ g.arcs ∧
            (e.src = e.tgt ∧ e.src = front.1 ∨ e.src = e.src ∧ e.tgt = front.1) := by
          intro e hme
          rw [DiGraph.inArcs, List.mem_filter] at hme
          exact ⟨hme.1, Or.inr ⟨rfl, by simpa using hme.2⟩⟩
        have h2 := bfsFold_inv g filter front.2 (fun x => x.tgt) cidx front.1
          (g.outArcs front.1) { st with queue := rest } hout hstep hcur
        have h3 := bfsFold_inv g filter front.2 (fun x => x.src) cidx front.1
          (g.inArcs front.1)
          ((g.outArcs front.1).foldl
            (bfsEdgeStep g filter front.2 (fun x => x.tgt))
            { st with queue := rest })
          hin h2.1 h2.2
        exact ih _ h3.1

theorem nodup_getElem_not_mem_take {l : List Nat} (hnd : l.Nodup) :
    ∀ i, (hi : i < l.length) → l[i] ∉ l.take i := by
  intro i hi hmem
  obtain ⟨j, hj, hje⟩ := List.mem_iff_getElem.mp hmem
  have hjlt : j < i := by
    have hj2 := hj
    rw [List.length_take] at hj2
    omega
  have hjl : j < l.length := Nat.lt_trans hjlt hi
  have hgj : (l.take i)[j] = l[j] := List.getElem_take l
  rw [hgj] at hje
  have hji := (hnd.getElem_inj_iff).mp hje
  omega

/-- Claim C9: whenever `neighborhood` succeeds, the returned edge list holds
exactly the BFS discovery edges.  A single discovery-record list produces
both result lists: the node list is the discovered vertices in discovery
order — none repeated and none the center — and the edge list is, position
by position, the payload of the arc by which that vertex was first reached
(so the two lists have equal length).  Each discovery arc joins its vertex,
fresh at its own position, to an endpoint discovered strictly earlier;
hence an edge whose two endpoints have both already been discovered is
never included. -/
theorem claim_C9 (g : GraphData) (center_id : String) (radius : Nat)
    (filter : Option (List Relationship)) (r : NeighborhoodResult)
    (h : neighborhood g center_id radius filter = .ok r) :
    ∃ cidx, g.get_index center_id = some cidx ∧
      ∃ recs : List (Nat × PGEdge),
        r.nodes = recs.map (fun p => g.graph.nodeAt p.1) ∧
        r.edges = recs.map (fun p => p.2.payload) ∧
        r.edges.length = r.nodes.length ∧
        (cidx :: recs.map Prod.fst).Nodup ∧
        (∀ i, (hi : i < recs.length) →
          recs[i].1 ∉ cidx :: (recs.map Prod.fst).take i) ∧
        BfsDisc g.graph cidx recs := by
  unfold neighborhood at h
  cases hn : g.get_node center_id with
  | none =>
    rw [hn] at h
    exact Except.noConfusion h
  | some center_node =>
    cases hix : g.get_index center_id with
    | none =>
      simp only [hn, hix] at h
      exact Except.noConfusion h
    | some cidx =>
      simp only [hn, hix] at h
      rw [Except.ok.injEq] at h
      have hinit : BfsInv g.graph cidx
          { visited := [cidx], distances := [(center_id, 0)],
            queue := [(cidx, 0)], result_nodes := [], result_edges := [] } := by
        refine ⟨[], by simp, rfl, rfl, by simp, ?_, ?_⟩
        · intro q hqm
          have hq2 : q = (cidx, 0) := by simpa using hqm
          subst hq2
          simp
        · intro i hi
          exact absurd hi (by simp)
      obtain ⟨recs, hv, hnodes, hedges, hnd, hqi, hd⟩ :=
        bfsLoop_inv g.graph filter (min radius MAX_BFS_DEPTH) cidx
          (2 + g.graph.verts.length + 2 * g.graph.arcs.length) _ hinit
      have hrn : r.nodes = recs.map (fun p => g.graph.nodeAt p.1) := by
        rw [← h]
        exact hnodes
      have hre : r.edges = recs.map (fun p => p.2.payload) := by
        rw [← h]
        exact hedges
      refine ⟨cidx, rfl, recs, hrn, hre, ?_, hnd, ?_, hd⟩
      · rw [hrn, hre]
        simp
      · intro i hi hmem
        rcases List.mem_cons.mp hmem with h1 | h2
        · have hmm : recs[i].1 ∈ recs.map Prod.fst :=
            List.mem_map_of_mem Prod.fst (List.getElem_mem hi)
          rw [h1] at hmm
          exact (List.nodup_cons.mp hnd).1 hmm
        · have him : i < (recs.map Prod.fst).length := by simpa using hi
          have hmm : (recs.map Prod.fst)[i] ∈ (recs.map Prod.fst).take i := by
            rw [List.getElem_map]
            exact h2
          exact nodup_getElem_not_mem_take (List.nodup_cons.mp hnd).2 i him hmm

/-- Witness for C9 on a concrete run: in `cycGraph` the neighborhood of `a`
at radius 5 discovers `b` through the arc `a → b` and excludes the arc
`b → a`, whose endpoints are both already discovered by the time it is
examined. -/
theorem claim_C9_witness :
    (neighborhood cycGraph "a" 5 none = Except.ok c9res) ∧
    (∃ cidx, cycGraph.get_index "a" = some cidx ∧
      ∃ recs : List (Nat × PGEdge),
        c9res.nodes = recs.map (fun p => cycGraph.graph.nodeAt p.1) ∧
        c9res.edges = recs.map (fun p => p.2.payload) ∧
        c9res.edges.length = c9res.nodes.length ∧
        (cidx :: recs.map Prod.fst).Nodup ∧
        (∀ i, (hi : i < recs.length) →
          recs[i].1 ∉ cidx :: (recs.map Prod.fst).take i) ∧
        BfsDisc cycGraph.graph cidx recs) :=
  ⟨rfl, claim_C9 cycGraph "a" 5 none c9res rfl⟩

-- ===========================================================================
-- Arc-path lemmas
-- ===========================================================================

theorem pathCost_append (p q : List PGEdge) :
    pathCost (p ++ q) = pathCost p + pathCost q := by
  simp [pathCost]

theorem endV_append (s : Nat) (p q : List PGEdge) :
    endV s (p ++ q) = endV (endV s p) q := by
  induction p generalizing s with
  | nil => rfl
  | cons e p ih => simpa [endV] using ih e.tgt

theorem isEdgePath_endV (g : DiGraph) :
    ∀ (p : List PGEdge) (s t : Nat), IsEdgePath g s t p → endV s p = t := by
  intro p
  induction p with
  | nil => intro s t h; exact h
  | cons e p ih => intro s t h; exact ih e.tgt t h.2.2

theorem isEdgePath_append (g : DiGraph) (p q : List PGEdge) (s t : Nat) :
    IsEdgePath g s t (p ++ q)
      ↔ IsEdgePath g s (endV s p) p ∧ IsEdgePath g (endV s p) t q := by
  induction p generalizing s with
  | nil => simp [IsEdgePath, endV]
  | cons e p ih =>
    show (e ∈ g.arcs ∧ e.src = s ∧ IsEdgePath g e.tgt t (p ++ q)) ↔ _
    rw [ih e.tgt]
    show _ ↔ (e ∈ g.arcs ∧ e.src = s ∧ IsEdgePath g e.tgt (endV e.tgt p) p)
      ∧ IsEdgePath g (endV e.tgt p) t q
    tauto

theorem isEdgePath_glue (g : DiGraph) (p q : List PGEdge) (s mid t : Nat)
    (hp : IsEdgePath g s mid p) (hq : IsEdgePath g mid t q) :
    IsEdgePath g s t (p ++ q) := by
  rw [isEdgePath_append]
  rw [isEdgePath_endV g p s mid hp]
  exact ⟨hp, hq⟩

theorem isEdgePath_mem (g : DiGraph) :
    ∀ (p : List PGEdge) (s t : Nat), IsEdgePath g s t p →
      ∀ e ∈ p, e ∈ g.arcs := by
  intro p
  induction p with
  | nil => intro s t _ e he; cases he
  | cons f p ih =>
    intro s t h e he
    rcases List.mem_cons.mp he with rfl | he
    · exact h.1
    · exact ih f.tgt t h.2.2 e he

theorem isEdgePath_srcs (g : DiGraph) :
    ∀ (p : List PGEdge) (s t : Nat), IsEdgePath g s t p →
      p.map (·.src) = (nodeSeq s p).dropLast := by
  intro p
  induction p with
  | nil => intro s t _; simp [nodeSeq]
  | cons e p ih =>
    intro s t h
    have htail := ih e.tgt t h.2.2
    simp only [nodeSeq] at htail ⊢
    rw [List.map_cons, htail, h.2.1, List.map_cons]
    rfl

theorem simple_path_length_le (g : DiGraph) (p : List PGEdge) (s t : Nat)
    (hp : IsEdgePath g s t p) (hnd : (nodeSeq s p).Nodup) :
    p.length ≤ g.arcs.length := by
  have hsrc := isEdgePath_srcs g p s t hp
  have hnd' : (p.map (·.src)).Nodup := by
    rw [hsrc]; exact (List.dropLast_sublist _).nodup hnd
  have hsub : p.map (·.src) ⊆ g.arcs.map (·.src) := by
    intro x hx
    obtain ⟨e, he, rfl⟩ := List.mem_map.mp hx
    exact List.mem_map_of_mem _ (isEdgePath_mem g p s t hp e he)
  have := (hnd'.subperm hsub).length_le
  simpa using this

theorem not_nodup_split {α : Type} (l : List α) (h : ¬ l.Nodup) :
    ∃ (a : α) (l₁ l₂ l₃ : List α), l = l₁ ++ a :: l₂ ++ a :: l₃ := by
  induction l with
  | nil => simp at h
  | cons x xs ih =>
    by_cases hx : x ∈ xs
    · obtain ⟨s, t, rfl⟩ := List.append_of_mem hx
      exact ⟨x, [], s, t, by simp⟩
    · have hxs : ¬ xs.Nodup := fun hn => h (List.nodup_cons.mpr ⟨hx, hn⟩)
      obtain ⟨a, l₁, l₂, l₃, rfl⟩ := ih hxs
      exact ⟨a, x :: l₁, l₂, l₃, by simp⟩

theorem getD_append_length {α : Type} (l₁ : List α) (a : α) (rest : List α)
    (d : α) : (l₁ ++ a :: rest).getD l₁.length d = a := by
  induction l₁ with
  | nil => rfl
  | cons x xs ih => simpa using ih

theorem endV_take :
    ∀ (p : List PGEdge) (k : Nat) (s : Nat), k ≤ p.length →
      endV s (p.take k) = (nodeSeq s p).getD k 0 := by
  intro p
  induction p with
  | nil =>
    intro k s hk
    obtain rfl := Nat.le_zero.mp hk
    rfl
  | cons e p ih =>
    intro k s hk
    cases k with
    | zero => rfl
    | succ k =>
      show endV e.tgt (p.take k) = _
      rw [ih k e.tgt (by simpa using hk)]
      rfl

theorem exists_simple_path (g : DiGraph) :
    ∀ (n : Nat) (p : List PGEdge) (s t : Nat), p.length ≤ n →
      IsEdgePath g s t p →
      ∃ q, IsEdgePath g s t q ∧ (nodeSeq s q).Nodup ∧
        pathCost q ≤ pathCost p := by
  intro n
  induction n with
  | zero =>
    intro p s t hl hp
    obtain rfl := List.length_eq_zero.mp (Nat.le_zero.mp hl)
    exact ⟨[], hp, by simp [nodeSeq], le_refl _⟩
  | succ n ih =>
    intro p s t hl hp
    by_cases hnd : (nodeSeq s p).Nodup
    · exact ⟨p, hp, hnd, le_refl _⟩
    obtain ⟨a, l₁, l₂, l₃, hsplit⟩ := not_nodup_split _ hnd
    have hlen : (nodeSeq s p).length = p.length + 1 := by simp [nodeSeq]
    have hlen2 : (nodeSeq s p).length
        = l₁.length + l₂.length + l₃.length + 2 := by
      rw [hsplit]; simp; omega
    have hij : l₁.length < l₁.length + 1 + l₂.length := by omega
    have hjp : l₁.length + 1 + l₂.length ≤ p.length := by omega
    have hvi : (nodeSeq s p).getD l₁.length 0 = a := by
      rw [hsplit, List.append_assoc, List.cons_append]
      exact getD_append_length _ _ _ _
    have hvj : (nodeSeq s p).getD (l₁.length + 1 + l₂.length) 0 = a := by
      have hlen3 : (l₁ ++ a :: l₂).length = l₁.length + 1 + l₂.length := by
        simp; omega
      rw [hsplit, ← hlen3]
      exact getD_append_length _ _ _ _
    have e1 : endV s (p.take l₁.length) = a := by
      rw [endV_take p _ s (le_of_lt (lt_of_lt_of_le hij hjp)), hvi]
    have e2 : endV s (p.take (l₁.length + 1 + l₂.length)) = a := by
      rw [endV_take p _ s hjp, hvj]
    have e3 : p.take (l₁.length + 1 + l₂.length)
        = p.take l₁.length
          ++ (p.drop l₁.length).take (l₁.length + 1 + l₂.length - l₁.length) := by
      rw [← List.take_add]
      congr 1
      omega
    have hmidsplit : p.drop l₁.length
        = (p.drop l₁.length).take (l₁.length + 1 + l₂.length - l₁.length)
          ++ p.drop (l₁.length + 1 + l₂.length) := by
      conv_lhs => rw [← List.take_append_drop
        (l₁.length + 1 + l₂.length - l₁.length) (p.drop l₁.length)]
      rw [List.drop_drop]
      congr 2
      omega
    have hp' : IsEdgePath g s t (p.take l₁.length ++ p.drop l₁.length) := by
      rw [List.take_append_drop]; exact hp
    obtain ⟨hA, hB⟩ := (isEdgePath_append g _ _ s t).mp hp'
    rw [e1] at hA hB
    have hB' : IsEdgePath g a t
        ((p.drop l₁.length).take (l₁.length + 1 + l₂.length - l₁.length)
          ++ p.drop (l₁.length + 1 + l₂.length)) := by
      rw [← hmidsplit]; exact hB
    obtain ⟨hC, hD⟩ := (isEdgePath_append g _ _ a t).mp hB'
    have e4 : endV a
        ((p.drop l₁.length).take (l₁.length + 1 + l₂.length - l₁.length)) = a := by
      have h5 : endV s (p.take (l₁.length + 1 + l₂.length))
          = endV (endV s (p.take l₁.length))
              ((p.drop l₁.length).take (l₁.length + 1 + l₂.length - l₁.length)) := by
        rw [e3, endV_append]
      rw [e1] at h5
      rw [← h5, e2]
    rw [e4] at hD
    have hglue : IsEdgePath g s t
        (p.take l₁.length ++ p.drop (l₁.length + 1 + l₂.length)) :=
      isEdgePath_glue g _ _ s a t hA hD
    have hcost : pathCost (p.take l₁.length ++ p.drop (l₁.length + 1 + l₂.length))
        ≤ pathCost p := by
      have hdecomp : pathCost p
          = pathCost (p.take l₁.length)
            + pathCost ((p.drop l₁.length).take (l₁.length + 1 + l₂.length - l₁.length))
            + pathCost (p.drop (l₁.length + 1 + l₂.length)) := by
        conv_lhs => rw [← List.take_append_drop (l₁.length + 1 + l₂.length) p, e3]
        rw [pathCost_append, pathCost_append]
      rw [pathCost_append]
      omega
    have hlen4 : (p.take l₁.length ++ p.drop (l₁.length + 1 + l₂.length)).length
        ≤ n := by
      rw [List.length_append, List.length_take, List.length_drop]
      omega
    obtain ⟨q, hq1, hq2, hq3⟩ := ih _ s t hlen4 hglue
    exact ⟨q, hq1, hq2, le_trans hq3 hcost⟩

-- ===========================================================================
-- Soundness and completeness of the simple-path enumeration
-- ===========================================================================

theorem endV_mem : ∀ (p : List PGEdge) (s : Nat), p ≠ [] →
    endV s p ∈ p.map (·.tgt) := by
  intro p
  induction p with
  | nil => intro s h; exact absurd rfl h
  | cons e p ih =>
    intro s _
    cases p with
    | nil => simp [endV]
    | cons f p' =>
      show endV e.tgt (f :: p') ∈ (e :: f :: p').map (·.tgt)
      rw [List.map_cons]
      exact List.mem_cons_of_mem _ (ih e.tgt (by simp))

theorem simplePaths_sound (g : DiGraph) (t : Nat) :
    ∀ (fuel s : Nat) (visited : List Nat) (p : List PGEdge),
      p ∈ simplePaths g t fuel s visited → IsEdgePath g s t p := by
  intro fuel
  induction fuel with
  | zero => intro s visited p hp; simp [simplePaths] at hp
  | succ fuel ih =>
    intro s visited p hp
    unfold simplePaths at hp
    rw [List.mem_flatMap] at hp
    obtain ⟨e, he, hpe⟩ := hp
    have hearcs : e ∈ g.arcs ∧ e.src = s := by
      have := List.mem_filter.mp he
      exact ⟨this.1, by simpa using this.2⟩
    by_cases ht : e.tgt = t
    · rw [if_pos ht] at hpe
      have : p = [e] := by simpa using hpe
      subst this
      exact ⟨hearcs.1, hearcs.2, ht⟩
    · rw [if_neg ht] at hpe
      by_cases hv : visited.contains e.tgt
      · rw [if_pos hv] at hpe
        cases hpe
      · rw [if_neg hv] at hpe
        obtain ⟨q, hq, rfl⟩ := List.mem_map.mp hpe
        exact ⟨hearcs.1, hearcs.2, ih e.tgt _ q hq⟩

theorem simplePaths_complete (g : DiGraph) (t : Nat) :
    ∀ (p : List PGEdge) (s : Nat) (visited : List Nat) (fuel : Nat),
      IsEdgePath g s t p → p ≠ [] → (nodeSeq s p).Nodup →
      (∀ v ∈ (p.map (·.tgt)).dropLast, v ∉ visited) →
      p.length ≤ fuel →
      p ∈ simplePaths g t fuel s visited := by
  intro p
  induction p with
  | nil => intro s visited fuel _ hne; exact absurd rfl hne
  | cons e rest ih =>
    intro s visited fuel hp hne hnd hvis hfuel
    obtain ⟨fuel, rfl⟩ : ∃ f, fuel = f + 1 := ⟨fuel - 1, by
      have : 1 ≤ fuel := le_trans (by simp) hfuel
      omega⟩
    unfold simplePaths
    rw [List.mem_flatMap]
    refine ⟨e, ?_, ?_⟩
    · rw [DiGraph.outArcs, List.mem_filter]
      exact ⟨hp.1, by simpa using hp.2.1⟩
    · have hnd' : (nodeSeq e.tgt rest).Nodup := by
        have : (nodeSeq s (e :: rest)).Nodup := hnd
        simp only [nodeSeq, List.map_cons] at this
        exact (List.nodup_cons.mp this).2
      cases rest with
      | nil =>
        have ht : e.tgt = t := hp.2.2
        rw [if_pos ht]
        simp
      | cons f rest' =>
        have htail : IsEdgePath g e.tgt t (f :: rest') := hp.2.2
        have hlast : t ∈ (f :: rest').map (·.tgt) := by
          have hend := isEdgePath_endV g (f :: rest') e.tgt t htail
          rw [← hend]
          exact endV_mem _ _ (by simp)
        have hetgt_notin : e.tgt ∉ (f :: rest').map (·.tgt) :=
          (List.nodup_cons.mp hnd').1
        have hne_t : e.tgt ≠ t := fun h => hetgt_notin (h ▸ hlast)
        have hmem_vis : e.tgt ∉ visited := by
          apply hvis
          show e.tgt ∈ ((e :: f :: rest').map (·.tgt)).dropLast
          simp
        rw [if_neg hne_t, if_neg (by simpa using hmem_vis)]
        rw [List.mem_map]
        refine ⟨f :: rest',
          ih e.tgt (e.tgt :: visited) fuel htail (by simp) hnd' ?_
            (by simpa using hfuel), rfl⟩
        intro v hv
        have hv' : v ∈ (f :: rest').map (·.tgt) :=
          (List.dropLast_sublist _).subset hv
        rw [List.mem_cons]
        push_neg
        constructor
        · intro heq
          exact hetgt_notin (heq ▸ hv')
        · apply hvis
          show v ∈ ((e :: f :: rest').map (·.tgt)).dropLast
          simpa using Or.inr hv

-- ===========================================================================
-- The minimum-selecting fold of the astar model
-- ===========================================================================

theorem foldlMin_mem :
    ∀ (ps : List (List PGEdge)) (best : List PGEdge),
      ps.foldl (fun b q => if pathCost q < pathCost b then q else b) best = best
        ∨ ps.foldl (fun b q => if pathCost q < pathCost b then q else b) best ∈ ps := by
  intro ps
  induction ps with
  | nil => intro best; exact Or.inl rfl
  | cons q ps ih =>
    intro best
    rcases ih (if pathCost q < pathCost best then q else best) with h | h
    · by_cases hc : pathCost q < pathCost best
      · right
        rw [List.foldl_cons, h, if_pos hc]
        exact List.mem_cons_self _ _
      · left
        rw [List.foldl_cons, h, if_neg hc]
    · right
      rw [List.foldl_cons]
      exact List.mem_cons_of_mem _ h

theorem foldlMin_le :
    ∀ (ps : List (List PGEdge)) (best : List PGEdge),
      pathCost (ps.foldl (fun b q => if pathCost q < pathCost b then q else b) best)
        ≤ pathCost best ∧
      ∀ q ∈ ps,
        pathCost (ps.foldl (fun b q => if pathCost q < pathCost b then q else b) best)
          ≤ pathCost q := by
  intro ps
  induction ps with
  | nil =>
    intro best
    exact ⟨le_refl _, by intro q hq; cases hq⟩
  | cons r ps ih =>
    intro best
    obtain ⟨h1, h2⟩ := ih (if pathCost r < pathCost best then r else best)
    rw [List.foldl_cons]
    constructor
    · refine le_trans h1 ?_
      by_cases hc : pathCost r < pathCost best
      · rw [if_pos hc]; exact le_of_lt hc
      · rw [if_neg hc]
    · intro q hq
      rcases List.mem_cons.mp hq with rfl | hq
      · refine le_trans h1 ?_
        by_cases hc : pathCost q < pathCost best
        · rw [if_pos hc]
        · rw [if_neg hc]; omega
      · exact h2 q hq

theorem chooseMin_mem (l : List (List PGEdge)) (p : List PGEdge)
    (h : chooseMin l = some p) : p ∈ l := by
  cases l with
  | nil => cases h
  | cons q qs =>
    rw [chooseMin] at h
    injection h with h
    rcases foldlMin_mem qs q with h' | h'
    · rw [← h, h']; exact List.mem_cons_self _ _
    · rw [← h]; exact List.mem_cons_of_mem _ h'

theorem chooseMin_le (l : List (List PGEdge)) (p : List PGEdge)
    (h : chooseMin l = some p) : ∀ q ∈ l, pathCost p ≤ pathCost q := by
  cases l with
  | nil => cases h
  | cons r rs =>
    rw [chooseMin] at h
    injection h with h
    intro q hq
    rcases List.mem_cons.mp hq with rfl | hq
    · rw [← h]; exact (foldlMin_le rs q).1
    · rw [← h]; exact (foldlMin_le rs r).2 q hq

-- ===========================================================================
-- Claim C1: shortest_path optimality
-- ===========================================================================

/-- Counterexample for C1: on `c1graph` the search succeeds and returns the
two-hop path `s → m → t` (whose edges cost `16/9 + 16/9 = 32/9` under the
claim's exact cost `1 / max(w, 0.01)`), even though the valid directed path
consisting of the single edge `s → t` costs only `16/5 < 32/9`.  The
returned path therefore does not minimize the claimed cost — the code
truncates each cost to an integer (`as u32`) before searching. -/
theorem claim_C1_counterexample :
    pathFound (shortest_path c1graph "s" "t") = true ∧
    pathIdsOf (shortest_path c1graph "s" "t") = ["s", "m", "t"] ∧
    pathEdgesOf (shortest_path c1graph "s" "t") = [c1sm, c1mt] ∧
    IsEdgePath c1graph.graph 0 2 [⟨0, 2, c1st⟩] ∧
    (nodeSeq 0 [⟨0, 2, c1st⟩]).map (fun i => (c1graph.graph.nodeAt i).id)
      = ["s", "t"] ∧
    realPathCost [c1st] < realPathCost [c1sm, c1mt] := by
  refine ⟨by decide, by decide, by decide, by decide, by decide, ?_⟩
  have h5 : max (mkRat 5 16) (mkRat 1 100) = mkRat 5 16 := by decide
  have h9 : max (mkRat 9 16) (mkRat 1 100) = mkRat 9 16 := by decide
  unfold realPathCost realCost c1st c1sm c1mt Edge.with_weight Edge.new
  simp only [List.map_cons, List.map_nil, List.sum_cons, List.sum_nil, h5, h9]
  rw [Rat.mkRat_eq_div, Rat.mkRat_eq_div]
  norm_num

/-- Claim C1 (amended): for distinct present endpoints, when `shortest_path`
reports `found = true` the returned node sequence is realized by a directed
arc path whose total TRUNCATED cost — `(1 / max(weight, 0.01)) as u32`
summed over its arcs — is minimal among all directed paths from `from_id`
to `to_id`.  (The untruncated sum `1 / max(weight, 0.01)` is not minimized,
as the counterexample shows.) -/
theorem claim_C1_amended (g : GraphData) (from_id to_id : String)
    (ia ib : Nat) (hia : g.get_index from_id = some ia)
    (hib : g.get_index to_id = some ib) (hne : ia ≠ ib)
    (hf : pathFound (shortest_path g from_id to_id) = true) :
    ∃ ep, IsEdgePath g.graph ia ib ep ∧
      pathIdsOf (shortest_path g from_id to_id)
        = (nodeSeq ia ep).map (fun i => (g.graph.nodeAt i).id) ∧
      ∀ q, IsEdgePath g.graph ia ib q → pathCost ep ≤ pathCost q := by
  unfold shortest_path at hf ⊢
  simp only [hia, hib] at hf ⊢
  rw [if_neg hne] at hf ⊢
  cases hast : astarModel g.graph ia ib with
  | none =>
    rw [hast] at hf
    simp [pathFound, PathResult.not_found] at hf
  | some ep =>
    rw [hast] at hf
    have hmem := chooseMin_mem _ _ hast
    have hpath : IsEdgePath g.graph ia ib ep :=
      simplePaths_sound g.graph ib _ ia [ia] ep hmem
    refine ⟨ep, hpath, ?_, ?_⟩
    · simp [pathIdsOf, nodeSeq, Function.comp]
    · intro q hq
      obtain ⟨q', hq'path, hq'nd, hq'cost⟩ :=
        exists_simple_path g.graph q.length q ia ib (le_refl _) hq
      have hq'ne : q' ≠ [] := by
        intro h
        subst h
        exact hne hq'path
      have hlen : q'.length ≤ astarFuel g.graph := by
        have := simple_path_length_le g.graph q' ia ib hq'path hq'nd
        unfold astarFuel
        omega
      have hvis : ∀ v ∈ (q'.map (·.tgt)).dropLast, v ∉ [ia] := by
        intro v hv
        have hia_notin : ia ∉ q'.map (·.tgt) := (List.nodup_cons.mp hq'nd).1
        have hv' : v ∈ q'.map (·.tgt) := (List.dropLast_sublist _).subset hv
        simp only [List.mem_singleton]
        intro heq
        exact hia_notin (heq ▸ hv')
      have hmemq := simplePaths_complete g.graph ib q' ia [ia]
        (astarFuel g.graph) hq'path hq'ne hq'nd hvis hlen
      exact le_trans (chooseMin_le _ _ hast q' hmemq) hq'cost

/-- Witness for C1 (amended), instantiated on the counterexample graph. -/
theorem claim_C1_witness :
    ∃ ep, IsEdgePath c1graph.graph 0 2 ep ∧
      pathIdsOf (shortest_path c1graph "s" "t")
        = (nodeSeq 0 ep).map (fun i => (c1graph.graph.nodeAt i).id) ∧
      ∀ q, IsEdgePath c1graph.graph 0 2 q → pathCost ep ≤ pathCost q :=
  claim_C1_amended c1graph "s" "t" 0 2 (by decide) (by decide) (by decide)
    (by decide)

-- ===========================================================================
-- Claims C2 and C10: prerequisites_sorted
-- ===========================================================================

theorem hasCycleB_of_hasCycle (g : DiGraph) (h : HasCycle g) :
    hasCycleB g = true := by
  obtain ⟨v, p, hpne, hp⟩ := h
  cases p with
  | nil => exact absurd rfl hpne
  | cons e rest =>
    have hearcs : e ∈ g.arcs := hp.1
    have hsrc : e.src = v := hp.2.1
    have hrest : IsEdgePath g e.tgt v rest := hp.2.2
    have houtarc : e ∈ g.outArcs v := by
      rw [DiGraph.outArcs, List.mem_filter]
      exact ⟨hearcs, by simpa using hsrc⟩
    suffices hmem : ∃ c, c ∈ cyclePathsAt g v by
      obtain ⟨c, hc⟩ := hmem
      unfold hasCycleB
      rw [List.any_eq_true]
      refine ⟨v, List.mem_map.mpr ⟨e, hearcs, hsrc⟩, ?_⟩
      cases hE : (cyclePathsAt g v).isEmpty with
      | true => exact absurd (List.isEmpty_iff.mp hE ▸ hc) (List.not_mem_nil c)
      | false => rfl
    by_cases ht : e.tgt = v
    · refine ⟨[e], ?_⟩
      unfold cyclePathsAt
      rw [List.mem_flatMap]
      exact ⟨e, houtarc, by rw [if_pos ht]; simp⟩
    · have hrestne : rest ≠ [] := by
        intro hr
        subst hr
        exact ht hrest
      obtain ⟨q, hqpath, hqnd, _⟩ :=
        exists_simple_path g rest.length rest e.tgt v (le_refl _) hrest
      have hqne : q ≠ [] := by
        intro hq0
        subst hq0
        exact ht hqpath
      have hqlen : q.length ≤ astarFuel g := by
        have := simple_path_length_le g q e.tgt v hqpath hqnd
        unfold astarFuel
        omega
      have hqvis : ∀ w ∈ (q.map (·.tgt)).dropLast, w ∉ [e.tgt] := by
        intro w hw
        have hw' : w ∈ q.map (·.tgt) := (List.dropLast_sublist _).subset hw
        have hnotin : e.tgt ∉ q.map (·.tgt) := (List.nodup_cons.mp hqnd).1
        simp only [List.mem_singleton]
        intro heq
        exact hnotin (heq ▸ hw')
      have hqmem := simplePaths_complete g v q e.tgt [e.tgt] (astarFuel g)
        hqpath hqne hqnd hqvis hqlen
      refine ⟨e :: q, ?_⟩
      unfold cyclePathsAt
      rw [List.mem_flatMap]
      refine ⟨e, houtarc, ?_⟩
      rw [if_neg ht, List.mem_map]
      exact ⟨q, hqmem, rfl⟩

/-- Counterexample for C2: `cycGraph` contains the Prerequisite cycle
`a ⇄ b`, yet `prerequisites_sorted` on target `t` (whose collected
prerequisite set is empty) returns `has_cycles = false` — the empty-set
early return fires before the whole-graph toposort the claim describes. -/
theorem claim_C2_counterexample :
    HasCycle cycGraph.graph ∧
    prerequisites_sorted cycGraph "t" = .ok ⟨[], Node.new "t" "T", false⟩ := by
  constructor
  · exact ⟨0, [⟨0, 1, Edge.new "a" "b" .Prerequisite⟩,
      ⟨1, 0, Edge.new "b" "a" .Prerequisite⟩], by decide⟩
  · rfl

/-- Claim C2 (amended): for a graph whose directed structure contains a
cycle anywhere and a present target id whose collected transitive
prerequisite set is NONEMPTY, `prerequisites_sorted` returns
`has_cycles = true` with the ordered list being that collected set in an
arbitrary (non-topological) order.  (With an empty collected set the
early return yields `has_cycles = false` even on cyclic graphs, as the
counterexample shows.) -/
theorem claim_C2_amended (g : GraphData) (target_id : String) (tn : Node)
    (hn : g.get_node target_id = some tn) (ti : Nat)
    (hi : g.get_index target_id = some ti)
    (hcyc : HasCycle g.graph)
    (hne : collectPrereqs g.graph ti ≠ []) :
    ∃ r, prerequisites_sorted g target_id = .ok r ∧
      r.has_cycles = true ∧ r.target = tn ∧
      r.ordered.Perm ((collectPrereqs g.graph ti).map g.graph.nodeAt) := by
  unfold prerequisites_sorted
  simp only [hn, hi]
  rw [if_neg (by simpa [List.isEmpty_iff] using hne)]
  unfold toposortModel
  rw [if_pos (hasCycleB_of_hasCycle g.graph hcyc)]
  exact ⟨_, rfl, rfl, rfl, List.Perm.refl _⟩

/-- Witness for C2 (amended): on `cycGraph`, target `b` has the nonempty
prerequisite set `{a, b}` and the result reports `has_cycles = true`. -/
theorem claim_C2_witness :
    ∃ r, prerequisites_sorted cycGraph "b" = .ok r ∧
      r.has_cycles = true ∧ r.target = Node.new "b" "B" ∧
      r.ordered.Perm ((collectPrereqs cycGraph.graph 1).map cycGraph.graph.nodeAt) :=
  claim_C2_amended cycGraph "b" (Node.new "b" "B") rfl 1 rfl
    ⟨0, [⟨0, 1, Edge.new "a" "b" .Prerequisite⟩,
      ⟨1, 0, Edge.new "b" "a" .Prerequisite⟩], by decide⟩
    (by decide)

/-- Claim C10: when the collected transitive set of incoming Prerequisite
edges of a present target is empty, `prerequisites_sorted` returns an empty
ordered list and `has_cycles = false` (no toposort is attempted), even if
the graph contains cycles elsewhere. -/
theorem claim_C10 (g : GraphData) (target_id : String) (tn : Node)
    (hn : g.get_node target_id = some tn) (ti : Nat)
    (hi : g.get_index target_id = some ti)
    (hempty : collectPrereqs g.graph ti = []) :
    prerequisites_sorted g target_id = .ok ⟨[], tn, false⟩ := by
  unfold prerequisites_sorted
  simp only [hn, hi, hempty]
  rfl

/-- Witness for C10: on the cyclic graph `cycGraph`, target `t` has no
prerequisites and the call returns the empty no-cycles result. -/
theorem claim_C10_witness :
    prerequisites_sorted cycGraph "t" = .ok ⟨[], Node.new "t" "T", false⟩ :=
  claim_C10 cycGraph "t" (Node.new "t" "T") rfl 2 rfl rfl

-- ===========================================================================
-- Claim C8: find_bridges
-- ===========================================================================

theorem assocGet_key_eq {ν : Type} (m : List (String × ν)) (k : String)
    (v : ν) (h : assocGet k m = some v) :
    ∃ p, p ∈ m ∧ p.1 = k ∧ p.2 = v := by
  unfold assocGet at h
  cases hf : m.find? (fun p => p.1 == k) with
  | none => rw [hf] at h; cases h
  | some p =>
    rw [hf] at h
    refine ⟨p, List.mem_of_find?_eq_some hf, ?_, by injection h⟩
    simpa using List.find?_some hf

theorem get_node_id (g : GraphData)
    (hkeys : ∀ p ∈ g.nodes, (p.2).id = p.1) (id : String) (n : Node)
    (h : g.get_node id = some n) : n.id = id := by
  obtain ⟨p, hp, hpk, hpv⟩ := assocGet_key_eq g.nodes id n h
  rw [← hpv, hkeys p hp, hpk]

theorem assocGet_isSome_of_mem {ν : Type} (m : List (String × ν))
    (q : String × ν) (h : q ∈ m) : (assocGet q.1 m).isSome := by
  unfold assocGet
  cases hf : m.find? (fun p => p.1 == q.1) with
  | none =>
    exfalso
    have := List.find?_eq_none.mp hf q h
    simp at this
  | some p => simp

theorem filterMap_get_node_spec (g : GraphData) :
    ∀ (l : List (String × Nat)),
      (∀ p ∈ l, ∃ n, g.get_node p.1 = some n ∧ n.id = p.1) →
      (l.filterMap (fun p => g.get_node p.1)).length = l.length ∧
      (l.filterMap (fun p => g.get_node p.1)).map (·.id) = l.map (·.1) := by
  intro l
  induction l with
  | nil => intro _; simp
  | cons p l ih =>
    intro h
    obtain ⟨n, hn, hnid⟩ := h p (List.mem_cons_self _ _)
    obtain ⟨ih1, ih2⟩ := ih (fun q hq => h q (List.mem_cons_of_mem _ hq))
    rw [List.filterMap_cons, hn]
    constructor
    · simpa using ih1
    · simpa [hnid] using ih2

/-- Counterexample for C8: on `c8graph`, `find_bridges` with limit 1 returns
node `z` (code score 4), yet under the claim's reading of distinct neighbor
categories — neighbors in both directions — node `a` scores 5 > 4, so the
returned list is not the top-1 ranking by the claimed score.  The code only
collects categories of out-neighbors (`Graph::edges` iterates outgoing
edges). -/
theorem claim_C8_counterexample :
    (find_bridges c8graph 1).map (·.id) = ["z"] ∧
    claimBridgeScore c8graph "a" = 5 ∧
    claimBridgeScore c8graph "z" = 4 ∧
    scoreOfId c8graph "a" = 1 ∧
    scoreOfId c8graph "z" = 4 := by
  refine ⟨by decide, by decide, by decide, by decide, by decide⟩

/-- Claim C8 (amended): for every graph and limit, `find_bridges` assigns
each node the score `(min(in_degree, out_degree) + 1) *
(distinct_out_neighbor_category_count + 1)` — the category count ranging
over targets of OUTGOING edges that have a category — and returns the top
`limit` nodes by this score: the result has `min limit n` nodes, its scores
are non-increasing, and every returned node scores at least as high as
every node left out.  (The hypothesis states the lookup-table coherence
every reachable `GraphData` satisfies: each stored node is keyed by its own
id.) -/
theorem claim_C8_amended (g : GraphData) (limit : Nat)
    (hkeys : ∀ p ∈ g.nodes, (p.2).id = p.1) :
    (find_bridges g limit).length = min limit g.nodes.length ∧
    List.Sorted (· ≥ ·) ((find_bridges g limit).map (fun n => scoreOfId g n.id)) ∧
    (∀ n ∈ find_bridges g limit, ∀ p ∈ g.nodes,
      (p.2).id ∉ (find_bridges g limit).map (·.id) →
      scoreOfId g (p.2).id ≤ scoreOfId g n.id) := by
  have hscores : ∀ p ∈ g.nodes.map (fun p => ((p.2).id, scoreOfId g (p.2).id)),
      p.2 = scoreOfId g p.1 := by
    intro p hp
    obtain ⟨q, _, rfl⟩ := List.mem_map.mp hp
    rfl
  have hlook : ∀ p ∈ g.nodes.map (fun p => ((p.2).id, scoreOfId g (p.2).id)),
      ∃ n, g.get_node p.1 = some n ∧ n.id = p.1 := by
    intro p hp
    obtain ⟨q, hq, rfl⟩ := List.mem_map.mp hp
    have hkey : (q.2).id = q.1 := hkeys q hq
    have hsome : (assocGet q.1 g.nodes).isSome := assocGet_isSome_of_mem _ q hq
    obtain ⟨n, hn⟩ := Option.isSome_iff_exists.mp hsome
    refine ⟨n, ?_, ?_⟩
    · show assocGet (q.2).id g.nodes = some n
      rw [hkey]; exact hn
    · rw [get_node_id g hkeys q.1 n hn, hkey]
  haveI hTot : IsTotal (String × Nat) (fun a b => b.2 ≤ a.2) :=
    ⟨fun a b => le_total b.2 a.2⟩
  haveI hTrans : IsTrans (String × Nat) (fun a b => b.2 ≤ a.2) :=
    ⟨fun _ _ _ h1 h2 => le_trans h2 h1⟩
  have hsorted : List.Pairwise (fun a b : String × Nat => b.2 ≤ a.2)
      ((g.nodes.map (fun p => ((p.2).id, scoreOfId g (p.2).id))).insertionSort
        (fun a b => b.2 ≤ a.2)) :=
    List.sorted_insertionSort _ _
  have hperm : ((g.nodes.map (fun p => ((p.2).id, scoreOfId g (p.2).id))).insertionSort
      (fun a b => b.2 ≤ a.2)).Perm
      (g.nodes.map (fun p => ((p.2).id, scoreOfId g (p.2).id))) :=
    List.perm_insertionSort _ _
  have hlookS : ∀ p ∈ ((g.nodes.map (fun p => ((p.2).id, scoreOfId g (p.2).id))).insertionSort
      (fun a b => b.2 ≤ a.2)).take limit,
      ∃ n, g.get_node p.1 = some n ∧ n.id = p.1 := by
    intro p hp
    exact hlook p (hperm.subset ((List.take_sublist _ _).subset hp))
  have hscoreS : ∀ p ∈ ((g.nodes.map (fun p => ((p.2).id, scoreOfId g (p.2).id))).insertionSort
      (fun a b => b.2 ≤ a.2)),
      p.2 = scoreOfId g p.1 := by
    intro p hp
    exact hscores p (hperm.subset hp)
  obtain ⟨hlen, hids⟩ := filterMap_get_node_spec g _ hlookS
  have hfb : find_bridges g limit
      = (((g.nodes.map (fun p => ((p.2).id, scoreOfId g (p.2).id))).insertionSort
          (fun a b => b.2 ≤ a.2)).take limit).filterMap
        (fun p => g.get_node p.1) := rfl
  refine ⟨?_, ?_, ?_⟩
  · rw [hfb, hlen, List.length_take, List.Perm.length_eq hperm,
      List.length_map]
  · have hmapeq : (find_bridges g limit).map (fun n => scoreOfId g n.id)
        = (((g.nodes.map (fun p => ((p.2).id, scoreOfId g (p.2).id))).insertionSort
            (fun a b => b.2 ≤ a.2)).take limit).map (·.2) := by
      rw [hfb]
      have hcomp : ((((g.nodes.map (fun p => ((p.2).id, scoreOfId g (p.2).id))).insertionSort
          (fun a b => b.2 ≤ a.2)).take limit).filterMap
            (fun p => g.get_node p.1)).map (fun n => scoreOfId g n.id)
          = ((((g.nodes.map (fun p => ((p.2).id, scoreOfId g (p.2).id))).insertionSort
          (fun a b => b.2 ≤ a.2)).take limit).filterMap
            (fun p => g.get_node p.1)).map ((scoreOfId g) ∘ (·.id)) := rfl
      rw [hcomp, ← List.map_map, hids, List.map_map]
      refine List.map_congr_left ?_
      intro p hp
      exact (hscoreS p ((List.take_sublist _ _).subset hp)).symm
    rw [hmapeq]
    refine List.pairwise_map.mpr ?_
    exact List.Pairwise.sublist (List.take_sublist _ _) hsorted
  · intro n hn q hq hout
    rw [hfb] at hn
    obtain ⟨p, hpT, hpn⟩ := List.mem_filterMap.mp hn
    have hnid : n.id = p.1 := get_node_id g hkeys p.1 n hpn
    have hnp2 : scoreOfId g n.id = p.2 := by
      rw [hnid]
      exact (hscoreS p ((List.take_sublist _ _).subset hpT)).symm
    have hqpair : ((q.2).id, scoreOfId g (q.2).id)
        ∈ (g.nodes.map (fun p => ((p.2).id, scoreOfId g (p.2).id))).insertionSort
          (fun a b => b.2 ≤ a.2) :=
      hperm.symm.subset (List.mem_map_of_mem _ hq)
    have hqdrop : ((q.2).id, scoreOfId g (q.2).id)
        ∈ ((g.nodes.map (fun p => ((p.2).id, scoreOfId g (p.2).id))).insertionSort
          (fun a b => b.2 ≤ a.2)).drop limit := by
      have hsplit := List.take_append_drop limit
        ((g.nodes.map (fun p => ((p.2).id, scoreOfId g (p.2).id))).insertionSort
          (fun a b => b.2 ≤ a.2))
      rw [← hsplit] at hqpair
      rcases List.mem_append.mp hqpair with hin | hin
      · exfalso
        apply hout
        rw [hfb, hids]
        exact List.mem_map_of_mem _ hin
      · exact hin
    have hrel := List.Sorted.rel_of_mem_take_of_mem_drop hsorted hpT hqdrop
    rw [hnp2]
    exact hrel

/-- Witness for C8 (amended), instantiated on the counterexample graph with
limit 2. -/
theorem claim_C8_witness :
    (find_bridges c8graph 2).length = min 2 c8graph.nodes.length ∧
    List.Sorted (· ≥ ·) ((find_bridges c8graph 2).map (fun n => scoreOfId c8graph n.id)) ∧
    (∀ n ∈ find_bridges c8graph 2, ∀ p ∈ c8graph.nodes,
      (p.2).id ∉ (find_bridges c8graph 2).map (·.id) →
      scoreOfId c8graph (p.2).id ≤ scoreOfId c8graph n.id) :=
  claim_C8_amended c8graph 2 (by decide)

-- ===========================================================================
-- Claim C3: infrastructure lemmas
-- ===========================================================================

theorem assocGet_map_replace_ne {ν : Type} (k id : String) (v : ν)
    (m : List (String × ν)) (hne : id ≠ k) :
    assocGet id (m.map (fun p => if p.1 == k then (k, v) else p))
      = assocGet id m := by
  induction m with
  | nil => rfl
  | cons p m ih =>
    rw [List.map_cons]
    by_cases h : p.1 = k
    · rw [if_pos (by simpa using h), assocGet_cons, assocGet_cons,
        if_neg (Ne.symm hne), if_neg (by rw [h]; exact Ne.symm hne)]
      exact ih
    · rw [if_neg (by simpa using h), assocGet_cons, assocGet_cons]
      by_cases h2 : p.1 = id
      · rw [if_pos h2, if_pos h2]
      · rw [if_neg h2, if_neg h2]
        exact ih

theorem assocGet_insert_ne {ν : Type} (k id : String) (v : ν)
    (m : List (String × ν)) (hne : id ≠ k) :
    assocGet id (assocInsert k v m) = assocGet id m := by
  unfold assocInsert
  cases hm : assocGet k m with
  | none =>
    simp only [hm, Option.isSome_none, Bool.false_eq_true, if_false]
    rw [assocGet_append]
    cases hid : assocGet id m with
    | none => simp [assocGet_cons, assocGet_nil, Ne.symm hne]
    | some w => rfl
  | some w =>
    simp only [hm, Option.isSome_some, if_true]
    exact assocGet_map_replace_ne k id v m hne

theorem assocGet_filter_ne {ν : Type} (id k : String)
    (m : List (String × ν)) :
    assocGet k (m.filter (fun p => !(p.1 == id)))
      = if k = id then none else assocGet k m := by
  induction m with
  | nil => simp [assocGet_nil]
  | cons p m ih =>
    rw [List.filter_cons]
    by_cases h : p.1 = id
    · simp only [h, beq_self_eq_true, Bool.not_true, Bool.false_eq_true,
        if_false]
      rw [ih, assocGet_cons]
      by_cases hk : k = id
      · simp [hk]
      · rw [if_neg hk, if_neg hk, if_neg (by rw [h]; exact fun hh => hk hh.symm)]
    · simp only [beq_eq_false_iff_ne.mpr h, Bool.not_false, if_true]
      rw [assocGet_cons, assocGet_cons, ih]
      by_cases hp : p.1 = k
      · rw [if_pos hp, if_pos hp, if_neg (by rw [← hp]; exact h)]
      · rw [if_neg hp, if_neg hp]

theorem foldl_assocInsert_fresh {ν : Type} :
    ∀ (ps : List (String × ν)) (acc : List (String × ν)),
      (∀ p ∈ ps, assocGet p.1 acc = none) → (ps.map (·.1)).Nodup →
      ps.foldl (fun m p => assocInsert p.1 p.2 m) acc = acc ++ ps := by
  intro ps
  induction ps with
  | nil => intro acc _ _; simp
  | cons p ps ih =>
    intro acc hfresh hnd
    rw [List.foldl_cons]
    have hp : assocGet p.1 acc = none := hfresh p (List.mem_cons_self _ _)
    have hnd' : p.1 ∉ ps.map (·.1) ∧ (ps.map (·.1)).Nodup := by
      rw [List.map_cons, List.nodup_cons] at hnd
      exact hnd
    have hins : assocInsert p.1 p.2 acc = acc ++ [p] := by
      unfold assocInsert
      rw [hp]
      rfl
    rw [hins, ih (acc ++ [p]) ?_ hnd'.2]
    · simp
    · intro q hq
      rw [assocGet_append, hfresh q (List.mem_cons_of_mem _ hq)]
      have hqp : q.1 ≠ p.1 := by
        intro heq
        exact hnd'.1 (heq ▸ List.mem_map_of_mem _ hq)
      simp [assocGet_cons, assocGet_nil, Ne.symm hqp]

theorem idxPairsFrom_get :
    ∀ (vs : List Node) (n : Nat) (id : String) (i : Nat),
      assocGet id ((vs.enumFrom n).map (fun p => ((p.2).id, p.1))) = some i →
      ∃ k, k < vs.length ∧ i = n + k ∧ (vs.getD k (Node.new "" "")).id = id := by
  intro vs
  induction vs with
  | nil => intro n id i h; cases h
  | cons v vs ih =>
    intro n id i h
    rw [show (v :: vs).enumFrom n = (n, v) :: vs.enumFrom (n + 1) from rfl,
      List.map_cons, assocGet_cons] at h
    by_cases hv : v.id = id
    · rw [if_pos hv] at h
      injection h with h
      exact ⟨0, by simp, by omega, hv⟩
    · rw [if_neg hv] at h
      obtain ⟨k, hk, hik, hid⟩ := ih (n + 1) id i h
      exact ⟨k + 1, by simpa using hk, by omega, hid⟩

theorem idxPairsFrom_none :
    ∀ (vs : List Node) (n : Nat) (id : String),
      assocGet id ((vs.enumFrom n).map (fun p => ((p.2).id, p.1))) = none
        ↔ id ∉ vs.map (·.id) := by
  intro vs
  induction vs with
  | nil => intro n id; simp [assocGet_nil]
  | cons v vs ih =>
    intro n id
    rw [show (v :: vs).enumFrom n = (n, v) :: vs.enumFrom (n + 1) from rfl,
      List.map_cons, assocGet_cons]
    by_cases hv : v.id = id
    · simp [hv]
    · rw [if_neg hv, ih (n + 1)]
      simp only [List.map_cons, List.mem_cons]
      constructor
      · intro hn hmem
        rcases hmem with h1 | h1
        · exact hv h1.symm
        · exact hn h1
      · intro hn h1
        exact hn (Or.inr h1)

theorem idxPairsFrom_append :
    ∀ (vs : List Node) (n : Nat) (v : Node),
      (((vs ++ [v]).enumFrom n).map (fun p => ((p.2).id, p.1)))
        = ((vs.enumFrom n).map (fun p => ((p.2).id, p.1)))
          ++ [(v.id, n + vs.length)] := by
  intro vs
  induction vs with
  | nil => intro n v; simp
  | cons w vs ih =>
    intro n v
    rw [show ((w :: vs) ++ [v]).enumFrom n
        = (n, w) :: (vs ++ [v]).enumFrom (n + 1) from rfl,
      show (w :: vs).enumFrom n = (n, w) :: vs.enumFrom (n + 1) from rfl,
      List.map_cons, List.map_cons, ih (n + 1) v]
    simp
    omega

theorem idxPairsFrom_keys :
    ∀ (vs : List Node) (n : Nat),
      (((vs.enumFrom n).map (fun p => ((p.2).id, p.1))).map (·.1))
        = vs.map (·.id) := by
  intro vs
  induction vs with
  | nil => intro n; rfl
  | cons v vs ih =>
    intro n
    rw [show (v :: vs).enumFrom n = (n, v) :: vs.enumFrom (n + 1) from rfl]
    simp only [List.map_cons, ih (n + 1)]

theorem eraseIdx_length_sub_one {α : Type} :
    ∀ (l : List α), l.eraseIdx (l.length - 1) = l.dropLast := by
  intro l
  induction l with
  | nil => rfl
  | cons x xs ih =>
    cases xs with
    | nil => rfl
    | cons y t =>
      show (x :: y :: t).eraseIdx (t.length + 1) = _
      rw [show (x :: y :: t).eraseIdx (t.length + 1)
          = x :: (y :: t).eraseIdx t.length from rfl]
      rw [show (y :: t).eraseIdx t.length
          = (y :: t).eraseIdx ((y :: t).length - 1) from by simp]
      rw [ih]
      rfl

theorem set_of_getElem? {α : Type} :
    ∀ (l : List α) (i : Nat) (b : α), l[i]? = some b → l.set i b = l := by
  intro l
  induction l with
  | nil => intro i b h; cases h
  | cons x xs ih =>
    intro i b h
    cases i with
    | zero =>
      have : b = x := by simpa using h.symm
      rw [this]
      rfl
    | succ i =>
      show x :: xs.set i b = x :: xs
      rw [ih i b (by simpa using h)]

theorem getD_cons_eraseIdx_perm {α : Type} (d : α) :
    ∀ (l : List α) (i : Nat), i < l.length →
      (l.getD i d :: l.eraseIdx i).Perm l := by
  intro l
  induction l with
  | nil => intro i hi; cases hi
  | cons x xs ih =>
    intro i hi
    cases i with
    | zero => rfl
    | succ i =>
      show (xs.getD i d :: x :: xs.eraseIdx i).Perm (x :: xs)
      exact (List.Perm.swap x (xs.getD i d) (xs.eraseIdx i)).trans
        ((ih i (by simpa using hi)).cons x)

theorem map_eraseIdx {α β : Type} (f : α → β) :
    ∀ (l : List α) (i : Nat), (l.eraseIdx i).map f = (l.map f).eraseIdx i := by
  intro l
  induction l with
  | nil => intro i; rfl
  | cons x xs ih =>
    intro i
    cases i with
    | zero => rfl
    | succ i =>
      show f x :: (xs.eraseIdx i).map f = _
      rw [ih i]
      rfl

theorem set_last_dropLast_perm {α : Type} :
    ∀ (l : List α) (i : Nat), i < l.length → ∀ b, l.getLast? = some b →
      ((l.set i b).dropLast).Perm (l.eraseIdx i) := by
  intro l
  induction l with
  | nil => intro i hi; cases hi
  | cons x xs ih =>
    intro i hi b hb
    cases i with
    | zero =>
      cases xs with
      | nil =>
        have : b = x := by simpa using hb.symm
        subst this
        rfl
      | cons y t =>
        show ((b :: y :: t).dropLast).Perm (y :: t)
        have hne : (y :: t) ≠ [] := by simp
        have hbl : (y :: t).getLast? = some b := by
          rw [← hb]
          exact List.getLast?_cons_cons.symm
        have hb2 : (y :: t).getLast hne = b := by
          have hgl := List.getLast?_eq_getLast (y :: t) hne
          rw [hgl] at hbl
          injection hbl
        have hconcat : (y :: t).dropLast ++ [b] = y :: t := by
          rw [← hb2]
          exact List.dropLast_append_getLast hne
        rw [List.dropLast_cons₂]
        have hstep : ((y :: t).dropLast ++ [b]).Perm (y :: t) := by
          rw [hconcat]
        exact (List.perm_append_singleton b ((y :: t).dropLast)).symm.trans hstep
    | succ i =>
      have hxs : i < xs.length := by simpa using hi
      have hxsne : xs ≠ [] := by
        intro h0
        rw [h0] at hxs
        cases hxs
      have hbl : xs.getLast? = some b := by
        rw [← hb]
        cases xs with
        | nil => exact absurd rfl hxsne
        | cons y t => exact List.getLast?_cons_cons.symm
      show ((x :: xs.set i b).dropLast).Perm (x :: xs.eraseIdx i)
      have hsetne : xs.set i b ≠ [] := by
        intro h0
        have hlen0 : xs.length = 0 := by
          have := congrArg List.length h0
          simpa using this
        omega
      cases hset : xs.set i b with
      | nil => exact absurd hset hsetne
      | cons z zs =>
        rw [show (x :: z :: zs).dropLast = x :: (z :: zs).dropLast from rfl]
        rw [← hset]
        exact (ih i hxs b hbl).cons x

-- ===========================================================================
-- Claim C3: preservation of the well-formedness invariant
-- ===========================================================================

theorem WFG.lookup_idx {g : GraphData} (h : WFG g) (id : String) (i : Nat)
    (hl : assocGet id g.node_indices = some i) :
    i < g.graph.verts.length ∧
    (g.graph.verts.getD i (Node.new "" "")).id = id := by
  rw [h.idx_eq] at hl
  obtain ⟨k, hk, hik, hid⟩ := idxPairsFrom_get g.graph.verts 0 id i hl
  have : i = k := by omega
  subst this
  exact ⟨hk, hid⟩

theorem wf_new : WFG GraphData.new := by
  refine ⟨rfl, by simp [GraphData.new], ?_, rfl, ?_⟩
  · intro e he
    cases he
  · intro id
    simp [GraphData.new, assocGet_nil]

theorem wf_add_node (g : GraphData) (n : Node) (h : WFG g) :
    WFG (g.add_node n).2 := by
  cases hg : assocGet n.id g.node_indices with
  | some idx =>
    have heq : (g.add_node n).2 = g := by
      unfold GraphData.add_node
      rw [hg]
    rw [heq]
    exact h
  | none =>
    have heq : (g.add_node n).2
        = { graph := { verts := g.graph.verts ++ [n], arcs := g.graph.arcs },
            node_indices :=
              assocInsert n.id g.graph.verts.length g.node_indices,
            nodes := assocInsert n.id n g.nodes,
            edges := g.edges } := by
      unfold GraphData.add_node DiGraph.addNode
      rw [hg]
    rw [heq]
    have hfresh : assocGet n.id (idxPairs g.graph.verts) = none := by
      rw [← h.idx_eq]
      exact hg
    have hnotin : n.id ∉ g.graph.verts.map (·.id) :=
      (idxPairsFrom_none g.graph.verts 0 n.id).mp hfresh
    refine ⟨?_, ?_, ?_, h.edges_eq, ?_⟩
    · show assocInsert n.id g.graph.verts.length g.node_indices
        = idxPairs (g.graph.verts ++ [n])
      rw [h.idx_eq]
      unfold assocInsert
      rw [hfresh]
      show idxPairs g.graph.verts ++ [(n.id, g.graph.verts.length)]
        = idxPairs (g.graph.verts ++ [n])
      have happ := idxPairsFrom_append g.graph.verts 0 n
      simpa [idxPairs] using happ.symm
    · show ((g.graph.verts ++ [n]).map (·.id)).Nodup
      rw [List.map_append, List.nodup_append]
      refine ⟨h.ids_nodup, by simp, ?_⟩
      intro x hx hx2
      have : x = n.id := by simpa using hx2
      subst this
      exact hnotin hx
    · intro e he
      obtain ⟨h1, h2, h3, h4⟩ := h.arcs_wf e he
      refine ⟨?_, ?_, ?_, ?_⟩
      · show e.src < (g.graph.verts ++ [n]).length
        rw [List.length_append]
        omega
      · show e.tgt < (g.graph.verts ++ [n]).length
        rw [List.length_append]
        omega
      · rw [List.getD_append _ _ _ _ h1]
        exact h3
      · rw [List.getD_append _ _ _ _ h2]
        exact h4
    · intro id
      by_cases hid : id = n.id
      · subst hid
        rw [assocGet_insert_self]
        simp
      · rw [assocGet_insert_ne n.id id n g.nodes hid, h.nodes_keys id]
        simp [hid]

theorem wf_add_edge (g : GraphData) (e : Edge) (h : WFG g) :
    WFG (g.add_edge e).2 := by
  cases hf : assocGet e.fromId g.node_indices with
  | none =>
    have heq : (g.add_edge e).2 = g := by
      unfold GraphData.add_edge
      rw [hf]
    rw [heq]
    exact h
  | some fi =>
    cases ht : assocGet e.toId g.node_indices with
    | none =>
      have heq : (g.add_edge e).2 = g := by
        unfold GraphData.add_edge
        rw [hf, ht]
      rw [heq]
      exact h
    | some ti =>
      have heq : (g.add_edge e).2
          = { graph := { verts := g.graph.verts,
                         arcs := g.graph.arcs ++ [⟨fi, ti, e⟩] },
              node_indices := g.node_indices,
              nodes := g.nodes,
              edges := g.edges ++ [e] } := by
        unfold GraphData.add_edge DiGraph.addEdge
        rw [hf, ht]
      rw [heq]
      obtain ⟨hfi, hfid⟩ := h.lookup_idx e.fromId fi hf
      refine ⟨h.idx_eq, h.ids_nodup, ?_, ?_, h.nodes_keys⟩
      · intro a ha
        rcases List.mem_append.mp ha with ha | ha
        · exact h.arcs_wf a ha
        · have : a = ⟨fi, ti, e⟩ := by simpa using ha
          subst this
          obtain ⟨hti, htid⟩ := h.lookup_idx e.toId ti ht
          exact ⟨hfi, hti, hfid.symm, htid.symm⟩
      · rw [h.edges_eq, List.map_append]
        rfl

theorem wf_remove_node (g : GraphData) (id : String) (h : WFG g) :
    WFG (g.remove_node id).2 := by
  cases hg : assocGet id g.node_indices with
  | none =>
    have heq : (g.remove_node id).2 = g := by
      unfold GraphData.remove_node assocRemove
      rw [hg]
    rw [heq]
    exact h
  | some idx =>
    obtain ⟨hidx, hidxid⟩ := h.lookup_idx id idx hg
    have hmem : id ∈ g.graph.verts.map (·.id) := by
      rw [← hidxid, List.getD_eq_getElem _ _ hidx]
      exact List.mem_map_of_mem _ (List.getElem_mem _)
    have hns : (assocGet id g.nodes).isSome = true := (h.nodes_keys id).mpr hmem
    obtain ⟨node, hnode⟩ := Option.isSome_iff_exists.mp hns
    have hvne : g.graph.verts ≠ [] := by
      intro h0
      rw [h0] at hidx
      cases hidx
    obtain ⟨last, hlast⟩ : ∃ b, g.graph.verts.getLast? = some b := by
      cases hl : g.graph.verts.getLast? with
      | none => exact absurd (List.getLast?_eq_none_iff.mp hl) hvne
      | some b => exact ⟨b, rfl⟩
    have hN : 0 < g.graph.verts.length := List.length_pos.mpr hvne
    have hlastD :
        g.graph.verts.getD (g.graph.verts.length - 1) (Node.new "" "") = last := by
      rw [List.getD_eq_getElem?_getD, ← List.getLast?_eq_getElem?, hlast]
      rfl
    have hLlast : (g.graph.verts.map (·.id)).getLast? = some last.id := by
      rw [List.getLast?_map, hlast]
      rfl
    have hperm1 : (((g.graph.verts.set idx last).dropLast).map (·.id)).Perm
        ((g.graph.verts.map (·.id)).eraseIdx idx) := by
      rw [List.map_dropLast, List.map_set]
      exact set_last_dropLast_perm _ idx (by simpa using hidx) last.id hLlast
    have hLgetD : (g.graph.verts.map (·.id)).getD idx "" = id := by
      have hmapD := List.getD_map g.graph.verts (Node.new "" "")
        (fun n => n.id) (n := idx)
      exact hmapD.trans (by rw [hidxid])
    have hpermL : ((id : String) :: (g.graph.verts.map (·.id)).eraseIdx idx).Perm
        (g.graph.verts.map (·.id)) := by
      have := getD_cons_eraseIdx_perm ("" : String) (g.graph.verts.map (·.id))
        idx (by simpa using hidx)
      rwa [hLgetD] at this
    have hcons : id ∉ (g.graph.verts.map (·.id)).eraseIdx idx ∧
        ((g.graph.verts.map (·.id)).eraseIdx idx).Nodup :=
      List.nodup_cons.mp ((List.Perm.nodup_iff hpermL).mpr h.ids_nodup)
    have hnodup' : (((g.graph.verts.set idx last).dropLast).map (·.id)).Nodup :=
      (List.Perm.nodup_iff hperm1).mpr hcons.2
    have hmem' : ∀ x, x ∈ ((g.graph.verts.set idx last).dropLast).map (·.id)
        ↔ (x ∈ g.graph.verts.map (·.id) ∧ x ≠ id) := by
      intro x
      rw [hperm1.mem_iff]
      constructor
      · intro hx
        refine ⟨hpermL.subset (List.mem_cons_of_mem _ hx), ?_⟩
        intro heq
        subst heq
        exact hcons.1 hx
      · rintro ⟨hxL, hxne⟩
        rcases List.mem_cons.mp (hpermL.symm.subset hxL) with h1 | h1
        · exact absurd h1 hxne
        · exact h1
    have hlen' : ((g.graph.verts.set idx last).dropLast).length
        = g.graph.verts.length - 1 := by
      simp
    have hgetD' : ∀ j, j < g.graph.verts.length - 1 →
        ((g.graph.verts.set idx last).dropLast).getD j (Node.new "" "")
          = if j = idx then last else g.graph.verts.getD j (Node.new "" "") := by
      intro j hj
      have hj1 : j < ((g.graph.verts.set idx last).dropLast).length := by
        rw [hlen']
        exact hj
      rw [List.getD_eq_getElem _ _ hj1, List.getElem_dropLast, List.getElem_set]
      by_cases hji : j = idx
      · rw [if_pos (hji.symm), if_pos hji]
      · rw [if_neg (fun hh => hji hh.symm), if_neg hji,
          List.getD_eq_getElem _ _ (by omega)]
    have harcs_pred : ∀ e ∈ g.graph.arcs,
        (!((e.payload).fromId == id) && !((e.payload).toId == id))
          = !(e.src == idx || e.tgt == idx) := by
      intro e he
      obtain ⟨h1, h2, h3, h4⟩ := h.arcs_wf e he
      have hinj : ∀ (j : Nat), j < g.graph.verts.length →
          (g.graph.verts.getD j (Node.new "" "")).id = id → j = idx := by
        intro j hjn hjid
        have hjn2 : j < (g.graph.verts.map (·.id)).length := by simpa using hjn
        have hidx2 : idx < (g.graph.verts.map (·.id)).length := by
          simpa using hidx
        have e1 : (g.graph.verts.map (·.id))[j]
            = (g.graph.verts.map (·.id))[idx] := by
          rw [List.getElem_map, List.getElem_map,
            ← List.getD_eq_getElem _ (Node.new "" "") hjn,
            ← List.getD_eq_getElem _ (Node.new "" "") hidx, hjid, hidxid]
        exact (h.ids_nodup.getElem_inj_iff).mp e1
      have hsrc_iff : ((e.payload).fromId = id) ↔ e.src = idx := by
        rw [h3]
        exact ⟨hinj e.src h1, fun heq => by rw [heq]; exact hidxid⟩
      have htgt_iff : ((e.payload).toId = id) ↔ e.tgt = idx := by
        rw [h4]
        exact ⟨hinj e.tgt h2, fun heq => by rw [heq]; exact hidxid⟩
      have hb1 : ((e.payload).fromId == id) = (e.src == idx) := by
        by_cases hs : e.src = idx
        · simp [beq_iff_eq, hsrc_iff, hs]
        · rw [beq_eq_false_iff_ne.mpr (fun hh => hs (hsrc_iff.mp hh)),
            beq_eq_false_iff_ne.mpr hs]
      have hb2 : ((e.payload).toId == id) = (e.tgt == idx) := by
        by_cases ht2 : e.tgt = idx
        · simp [beq_iff_eq, htgt_iff, ht2]
        · rw [beq_eq_false_iff_ne.mpr (fun hh => ht2 (htgt_iff.mp hh)),
            beq_eq_false_iff_ne.mpr ht2]
      rw [hb1, hb2, Bool.not_or]
    have heq : (g.remove_node id).2
        = { graph := { verts := (g.graph.verts.set idx last).dropLast,
                       arcs := (g.graph.arcs.filter
                           (fun e => !(e.src == idx || e.tgt == idx))).map
                         (fun e => { e with
                            src := if e.src = g.graph.verts.length - 1
                              then idx else e.src,
                            tgt := if e.tgt = g.graph.verts.length - 1
                              then idx else e.tgt }) },
            node_indices :=
              rebuildIndices ((g.graph.verts.set idx last).dropLast),
            nodes := g.nodes.filter (fun p => !(p.1 == id)),
            edges := g.edges.filter
              (fun e => !(e.fromId == id) && !(e.toId == id)) } := by
      unfold GraphData.remove_node assocRemove DiGraph.removeNode
      simp only [hg, hnode, hlast]
    rw [heq]
    have hkeys' : ((idxPairs ((g.graph.verts.set idx last).dropLast)).map (·.1)).Nodup := by
      have := idxPairsFrom_keys ((g.graph.verts.set idx last).dropLast) 0
      rw [show idxPairs ((g.graph.verts.set idx last).dropLast)
          = (((g.graph.verts.set idx last).dropLast).enumFrom 0).map
            (fun p => ((p.2).id, p.1)) from rfl, this]
      exact hnodup'
    refine ⟨?_, hnodup', ?_, ?_, ?_⟩
    · show rebuildIndices ((g.graph.verts.set idx last).dropLast)
        = idxPairs ((g.graph.verts.set idx last).dropLast)
      unfold rebuildIndices
      rw [show (((g.graph.verts.set idx last).dropLast).enum.map
          (fun p => ((p.2).id, p.1)))
          = idxPairs ((g.graph.verts.set idx last).dropLast) from rfl]
      rw [foldl_assocInsert_fresh _ [] (fun p _ => rfl) hkeys']
      rfl
    · intro e' he'
      obtain ⟨e, hekeep, rfl⟩ := List.mem_map.mp he'
      obtain ⟨hearcs, hkeepB⟩ := List.mem_filter.mp hekeep
      have hksrc : ¬(e.src = idx) ∧ ¬(e.tgt = idx) := by
        have := hkeepB
        simp only [Bool.not_eq_true', Bool.or_eq_false_iff, beq_eq_false_iff_ne] at this
        exact this
      obtain ⟨h1, h2, h3, h4⟩ := h.arcs_wf e hearcs
      have hidxlt : idx < g.graph.verts.length - 1 ∨ idx = g.graph.verts.length - 1 := by
        omega
      refine ⟨?_, ?_, ?_, ?_⟩
      · show (if e.src = g.graph.verts.length - 1 then idx else e.src)
          < ((g.graph.verts.set idx last).dropLast).length
        rw [hlen']
        by_cases hsl : e.src = g.graph.verts.length - 1
        · rw [if_pos hsl]
          have : idx ≠ g.graph.verts.length - 1 := by
            intro hh
            exact hksrc.1 (by omega)
          omega
        · rw [if_neg hsl]
          omega
      · show (if e.tgt = g.graph.verts.length - 1 then idx else e.tgt)
          < ((g.graph.verts.set idx last).dropLast).length
        rw [hlen']
        by_cases hsl : e.tgt = g.graph.verts.length - 1
        · rw [if_pos hsl]
          have : idx ≠ g.graph.verts.length - 1 := by
            intro hh
            exact hksrc.2 (by omega)
          omega
        · rw [if_neg hsl]
          omega
      · show (e.payload).fromId
          = (((g.graph.verts.set idx last).dropLast).getD
              (if e.src = g.graph.verts.length - 1 then idx else e.src)
              (Node.new "" "")).id
        by_cases hsl : e.src = g.graph.verts.length - 1
        · have hidxlt2 : idx < g.graph.verts.length - 1 := by
            have : idx ≠ g.graph.verts.length - 1 := by
              intro hh
              exact hksrc.1 (by omega)
            omega
          rw [if_pos hsl, hgetD' idx hidxlt2, if_pos rfl, h3, hsl, hlastD]
        · have hsrclt : e.src < g.graph.verts.length - 1 := by omega
          rw [if_neg hsl, hgetD' e.src hsrclt, if_neg hksrc.1]
          exact h3
      · show (e.payload).toId
          = (((g.graph.verts.set idx last).dropLast).getD
              (if e.tgt = g.graph.verts.length - 1 then idx else e.tgt)
              (Node.new "" "")).id
        by_cases hsl : e.tgt = g.graph.verts.length - 1
        · have hidxlt2 : idx < g.graph.verts.length - 1 := by
            have : idx ≠ g.graph.verts.length - 1 := by
              intro hh
              exact hksrc.2 (by omega)
            omega
          rw [if_pos hsl, hgetD' idx hidxlt2, if_pos rfl, h4, hsl, hlastD]
        · have htgtlt : e.tgt < g.graph.verts.length - 1 := by omega
          rw [if_neg hsl, hgetD' e.tgt htgtlt, if_neg hksrc.2]
          exact h4
    · show g.edges.filter (fun e => !(e.fromId == id) && !(e.toId == id))
        = ((g.graph.arcs.filter (fun e => !(e.src == idx || e.tgt == idx))).map
            (fun e => { e with
              src := if e.src = g.graph.verts.length - 1 then idx else e.src,
              tgt := if e.tgt = g.graph.verts.length - 1 then idx else e.tgt })).map
          (·.payload)
      rw [h.edges_eq, List.filter_map, List.map_map]
      rw [show ((fun x : PGEdge => x.payload) ∘ (fun e : PGEdge => { e with
          src := if e.src = g.graph.verts.length - 1 then idx else e.src,
          tgt := if e.tgt = g.graph.verts.length - 1 then idx else e.tgt }))
        = (fun x : PGEdge => x.payload) from rfl]
      congr 1
      refine List.filter_congr ?_
      intro e he
      exact harcs_pred e he
    · intro id'
      show (assocGet id' (g.nodes.filter (fun p => !(p.1 == id)))).isSome = true
        ↔ id' ∈ ((g.graph.verts.set idx last).dropLast).map (·.id)
      rw [assocGet_filter_ne id id' g.nodes]
      by_cases hii : id' = id
      · rw [if_pos hii]
        simp only [Option.isSome_none, Bool.false_eq_true, false_iff]
        rw [hmem' id']
        rintro ⟨_, hne⟩
        exact hne hii
      · rw [if_neg hii, h.nodes_keys id', hmem' id']
        exact ⟨fun hx => ⟨hx, hii⟩, fun hx => hx.1⟩

/-- Claim C3: after every sequence of runtime mutations starting from the
empty graph, the flat edge list stays in sync with the petgraph structure —
its length equals `edge_count`, and the multiset of edge payloads it holds
equals the multiset of payloads stored on the graph's arcs. -/
theorem claim_C3 (ops : List Op) :
    ((ops.foldl applyOp GraphData.new).edges.length
      = (ops.foldl applyOp GraphData.new).edge_count) ∧
    ((ops.foldl applyOp GraphData.new).edges : Multiset Edge)
      = (((ops.foldl applyOp GraphData.new).graph.arcs.map (·.payload)) : Multiset Edge) := by
  have hstep : ∀ (l : List Op) (g : GraphData), WFG g → WFG (l.foldl applyOp g) := by
    intro l
    induction l with
    | nil => intro g hg; exact hg
    | cons op l ih =>
      intro g hg
      rw [List.foldl_cons]
      refine ih _ ?_
      cases op with
      | addNode n => exact wf_add_node g n hg
      | addEdge e => exact wf_add_edge g e hg
      | removeNode i => exact wf_remove_node g i hg
  have hwf : WFG (ops.foldl applyOp GraphData.new) := hstep ops GraphData.new wf_new
  refine ⟨?_, ?_⟩
  · rw [hwf.edges_eq, GraphData.edge_count, List.length_map]
  · rw [hwf.edges_eq]

end Fabryk
